import Mathlib

/-!
Verification development for the calendar-billing reconciliation core
(`MonthlyBillingSummary.tsx` and the financial-analysis module).

The TypeScript sources are embedded shallowly:

* text is modeled as `String` / `List Char`; the JavaScript regular-expression
  class `\s` and `String.prototype.trim` use the same whitespace set, embedded
  as `isJsWs`;
* `String.prototype.normalize ("NFC")` is modeled as the identity map (inputs
  are taken to be NFC-normal already; no step of the pipeline nor any claim
  depends on composition/decomposition of code points);
* `String.prototype.toLowerCase` is modeled on its ASCII fragment
  (`jsToLower`); Hebrew text, which the matcher is written for, has no case;
* JavaScript `Map`s are modeled as association lists whose lookup
  (`mapLookup`) returns the value of the last `set` for a key, matching
  `Map.set`/`Map.get` semantics; `Set`s built from arrays are modeled by
  `dedupKeep`, which keeps first occurrences in insertion order;
* numbers that hold prices/amounts are modeled as `ℚ` (the claims under
  scrutiny are stated for exact arithmetic);
* Supabase rows are records; the auto-sync's `update ... eq ("id", x)` is a
  map replacing rows with that id, and `insert` appends a row whose id is
  produced by the database (parameter `genId`).
-/

namespace CraftKind

/-- Whitespace class of JavaScript (`\s` in regular expressions, and the set
removed by `String.prototype.trim`). -/
def isJsWs (c : Char) : Bool :=
  decide (c.toNat = 0x20 ∨ (0x9 ≤ c.toNat ∧ c.toNat ≤ 0xD) ∨ c.toNat = 0xA0 ∨
    c.toNat = 0x1680 ∨ (0x2000 ≤ c.toNat ∧ c.toNat ≤ 0x200A) ∨ c.toNat = 0x2028 ∨
    c.toNat = 0x2029 ∨ c.toNat = 0x202F ∨ c.toNat = 0x205F ∨ c.toNat = 0x3000 ∨
    c.toNat = 0xFEFF)

/-- Hebrew niqqud / cantillation range stripped by
`replace (/[֑-ׇ]/g, "")`. -/
def isNiqqud (c : Char) : Bool :=
  decide (0x591 ≤ c.toNat ∧ c.toNat ≤ 0x5C7)

/-- Line terminators, which the `.` of a JavaScript regular expression does
not match. -/
def isLineTerm (c : Char) : Bool :=
  decide (c.toNat = 0xA ∨ c.toNat = 0xD ∨ c.toNat = 0x2028 ∨ c.toNat = 0x2029)

/-- ASCII fragment of `String.prototype.toLowerCase`. -/
def jsToLower (c : Char) : Char :=
  if 65 ≤ c.toNat ∧ c.toNat ≤ 90 then Char.ofNat (c.toNat + 32) else c

/-- Left half of `String.prototype.trim`. -/
def trimLeft (l : List Char) : List Char := l.dropWhile isJsWs

/-- Right half of `String.prototype.trim`. -/
def trimRight (l : List Char) : List Char := (l.reverse.dropWhile isJsWs).reverse

/-- Embedding of `String.prototype.trim`. -/
def jsTrim (l : List Char) : List Char := trimRight (trimLeft l)

/-- State machine for `replace (/\s+/g, " ")`: the flag records whether the
previous character was whitespace (in which case the current run has already
emitted its single space). -/
def collapseWsAux : Bool → List Char → List Char
  | _, [] => []
  | prevWs, c :: rest =>
    if isJsWs c then
      if prevWs then collapseWsAux true rest else ' ' :: collapseWsAux true rest
    else c :: collapseWsAux false rest

/-- Embedding of `replace (/\s+/g, " ")`. -/
def collapseWs (l : List Char) : List Char := collapseWsAux false l

/-- Embedding of `replace (/[֑-ׇ]/g, "")`. -/
def stripNiqqud (l : List Char) : List Char := l.filter (fun c => !isNiqqud c)

/-- State machine for `replace (/(.)\1+/g, "$1")`: a character is dropped when
it equals the previous character and `.` matches it (it is not a line
terminator); this collapses every run of 2+ identical matchable characters to
one. -/
def collapseDupsAux : Option Char → List Char → List Char
  | _, [] => []
  | prev, c :: rest =>
    if prev = some c ∧ isLineTerm c = false then collapseDupsAux prev rest
    else c :: collapseDupsAux (some c) rest

/-- Embedding of `replace (/(.)\1+/g, "$1")`. -/
def collapseDups (l : List Char) : List Char := collapseDupsAux none l

/-- The `normalizeName` pipeline on character lists: NFC (identity here), trim,
collapse whitespace runs, lowercase, strip niqqud, collapse duplicate runs. -/
def normList (l : List Char) : List Char :=
  collapseDups (stripNiqqud ((collapseWs (jsTrim l)).map jsToLower))

/-- Embedding of `normalizeName` from `MonthlyBillingSummary.tsx`. -/
def normalizeName (s : String) : String := String.mk (normList s.data)

/-- Patient row as consumed by `MonthlyBillingSummary` (fields used by the
billing logic). -/
structure Patient where
  id : String
  name : String
  phone : String
  session_price : ℚ
  billing_type : Option String
  parent_patient_id : Option String
  deriving DecidableEq

/-- Result of `findMatchingPatient`. -/
structure MatchResult where
  patient : Patient
  viaAlias : Bool
  deriving DecidableEq

/-- Lookup in a JavaScript `Map` built by successive `set` calls: the value of
the last `set` for the key wins. -/
def mapLookup {α β : Type} [DecidableEq α] (m : List (α × β)) (k : α) : Option β :=
  m.foldl (fun acc kv => if kv.1 = k then some kv.2 else acc) none

/-- Embedding of `findMatchingPatient`: exact normalized match first (first
candidate in roster order), alias lookup second. -/
def findMatchingPatient (eventName : String) (patients : List Patient)
    (aliasMap : List (String × String)) : Option MatchResult :=
  let normalizedEvent := normalizeName eventName
  match patients.find? (fun p => normalizeName p.name == normalizedEvent) with
  | some patient => some ⟨patient, false⟩
  | none =>
    match mapLookup aliasMap normalizedEvent with
    | some aliasPatientId =>
      match patients.find? (fun p => p.id == aliasPatientId) with
      | some patient => some ⟨patient, true⟩
      | none => none
    | none => none

/-- A `find?` over a list decomposed around its first hit returns that hit. -/
theorem find?_first {α} (p : α → Bool) (l₁ l₂ : List α) (a : α) (ha : p a = true)
    (h₁ : ∀ x ∈ l₁, p x = false) :
    (l₁ ++ a :: l₂).find? p = some a := by
  induction l₁ with
  | nil => simp [List.find?, ha]
  | cons b t ih =>
    have hb := h₁ b (by simp)
    simp only [List.cons_append, List.find?, hb]
    exact ih fun x hx => h₁ x (by simp [hx])

/-- A `find?` over a list on which the predicate is nowhere true is `none`. -/
theorem find?_none_of_all {α} (p : α → Bool) (l : List α)
    (h : ∀ x ∈ l, p x = false) : l.find? p = none := by
  induction l with
  | nil => rfl
  | cons b t ih =>
    have hb := h b (by simp)
    simp only [List.find?, hb]
    exact ih fun x hx => h x (by simp [hx])

/-- C1: for every event label, candidate list and alias map, an exact
normalized-name match wins: the first candidate in list order whose normalized
name equals the normalized label is returned with `viaAlias = false`,
regardless of the alias map; the alias map is consulted only when no candidate
matches exactly, returning the aliased patient with `viaAlias = true` when the
aliased patient id is in the candidate list; otherwise the result is `none`. -/
theorem c1_exact_match_beats_alias (eventName : String) (patients : List Patient)
    (aliasMap : List (String × String)) :
    (∀ (l₁ l₂ : List Patient) (p : Patient), patients = l₁ ++ p :: l₂ →
      normalizeName p.name = normalizeName eventName →
      (∀ q ∈ l₁, normalizeName q.name ≠ normalizeName eventName) →
      findMatchingPatient eventName patients aliasMap = some ⟨p, false⟩) ∧
    ((∀ q ∈ patients, normalizeName q.name ≠ normalizeName eventName) →
      (∀ pid, mapLookup aliasMap (normalizeName eventName) = some pid →
        ((∀ (l₁ l₂ : List Patient) (q : Patient), patients = l₁ ++ q :: l₂ → q.id = pid →
            (∀ q2 ∈ l₁, q2.id ≠ pid) →
            findMatchingPatient eventName patients aliasMap = some ⟨q, true⟩) ∧
          ((∀ q ∈ patients, q.id ≠ pid) →
            findMatchingPatient eventName patients aliasMap = none))) ∧
      (mapLookup aliasMap (normalizeName eventName) = none →
        findMatchingPatient eventName patients aliasMap = none)) := by
  constructor
  · intro l₁ l₂ p hdec hp hl₁
    have hfind : patients.find? (fun q => normalizeName q.name == normalizeName eventName)
        = some p := by
      subst hdec
      exact find?_first _ l₁ l₂ p (by simp [hp]) fun x hx => by
        simpa using hl₁ x hx
    simp [findMatchingPatient, hfind]
  · intro hnone
    have hfind : patients.find? (fun q => normalizeName q.name == normalizeName eventName)
        = none :=
      find?_none_of_all _ _ fun x hx => by simpa using hnone x hx
    refine ⟨fun pid hpid => ⟨?_, ?_⟩, fun hmiss => ?_⟩
    · intro l₁ l₂ q hdec hq hl₁
      have hfind2 : patients.find? (fun r => r.id == pid) = some q := by
        subst hdec
        exact find?_first _ l₁ l₂ q (by simp [hq]) fun x hx => by simpa using hl₁ x hx
      simp [findMatchingPatient, hfind, hpid, hfind2]
    · intro hnoid
      have hfind2 : patients.find? (fun r => r.id == pid) = none :=
        find?_none_of_all _ _ fun x hx => by simpa using hnoid x hx
      simp [findMatchingPatient, hfind, hpid, hfind2]
    · simp [findMatchingPatient, hfind, hmiss]

/-- Witness for C1: a patient named exactly like the label beats a saved alias
for the same label pointing at another patient. -/
theorem c1_exact_match_beats_alias_witness :
    findMatchingPatient "a" [⟨"x", "xavier", "", 100, none, none⟩, ⟨"y", "a", "", 80, none, none⟩]
      [("a", "x")] = some ⟨⟨"y", "a", "", 80, none, none⟩, false⟩ :=
  (c1_exact_match_beats_alias "a" _ _).1 [⟨"x", "xavier", "", 100, none, none⟩] []
    ⟨"y", "a", "", 80, none, none⟩ rfl (by decide) (by decide)

/-- Calendar event as consumed by the billing summary. Only the fields the
billing logic reads are modeled; the `start`/`end` instants and organizer are
used solely to render display strings (`date`, `calendarId`) and are omitted,
as is the falsy-string edge of `colorId` (absent is `none`). -/
structure CalendarEvent where
  id : String
  summary : String
  colorId : Option String
  deriving DecidableEq

/-- One matched session in a patient billing line (display-only fields `date`
and `calendarId` omitted). -/
structure Session where
  summary : String
  eventId : String
  childPatientName : Option String
  sessionPrice : ℚ
  deriving DecidableEq

/-- One per-patient billing line produced by the assembly. -/
structure PatientBilling where
  patient : Patient
  sessions : List Session
  total : ℚ
  childPatients : List Patient
  deriving DecidableEq

/-- Color ids considered billable besides the default unset color. -/
def BILLING_COLOR_IDS : List String := ["5", "3"]

/-- Embedding of `isBillingEvent`: unset color or one of the billing colors. -/
def isBillingEvent (colorId : Option String) : Bool :=
  match colorId with
  | none => true
  | some c => BILLING_COLOR_IDS.contains c

/-- Cancelled (flamingo/red) color id. -/
def CANCELLED_COLOR_ID : String := "4"

/-- Embedding of the `billingEvents` filter. -/
def billingEvents (events : List CalendarEvent) : List CalendarEvent :=
  events.filter (fun e => isBillingEvent e.colorId && e.colorId != some CANCELLED_COLOR_ID)

/-- Children registered under a parent patient id (`childPatientsByParent`). -/
def childPatientsOf (patients : List Patient) (pid : String) : List Patient :=
  patients.filter (fun p => p.parent_patient_id == some pid)

/-- Embedding of `standalonePatients`: no parent, or an institution. -/
def standalonePatients (patients : List Patient) : List Patient :=
  patients.filter (fun p => p.parent_patient_id == none || p.billing_type == some "institution")

/-- Effective match set of a standalone patient: itself, plus its children when
it is an institution. -/
def patientsToMatch (patients : List Patient) (patient : Patient) : List Patient :=
  if patient.billing_type = some "institution" then
    patient :: childPatientsOf patients patient.id
  else [patient]

/-- The per-candidate test used in the assembly loop: `findMatchingPatient`
against the singleton candidate list `[p]`, accepting when the returned
patient is `p` itself. -/
def eventMatchesPatient (aliasMap : List (String × String)) (e : CalendarEvent)
    (p : Patient) : Bool :=
  match findMatchingPatient e.summary [p] aliasMap with
  | some m => m.patient.id == p.id
  | none => false

/-- The member of the effective match set that actually matched the event
(the loop initializes with the standalone patient and breaks at the first
match). -/
def matchedPatientFor (patients : List Patient) (aliasMap : List (String × String))
    (patient : Patient) (e : CalendarEvent) : Patient :=
  ((patientsToMatch patients patient).find? (eventMatchesPatient aliasMap e)).getD patient

/-- Session record built for one matched event (the
`calendarNameByPatient` side table is a display concern and is not modeled). -/
def sessionFor (patients : List Patient) (aliasMap : List (String × String))
    (overrideMap : List (String × ℚ)) (patient : Patient) (e : CalendarEvent) : Session :=
  let matchedPatient := matchedPatientFor patients aliasMap patient e
  { summary := e.summary
    eventId := e.id
    childPatientName := if matchedPatient.id ≠ patient.id then some matchedPatient.name else none
    sessionPrice :=
      match mapLookup overrideMap e.id with
      | some price => price
      | none => matchedPatient.session_price }

/-- Billing line of one standalone patient, before the non-empty filter. -/
def billingFor (patients : List Patient) (aliasMap : List (String × String))
    (overrideMap : List (String × ℚ)) (events : List CalendarEvent)
    (patient : Patient) : PatientBilling :=
  let matchingSessions :=
    ((billingEvents events).filter
        (fun e => (patientsToMatch patients patient).any (eventMatchesPatient aliasMap e))).map
      (sessionFor patients aliasMap overrideMap patient)
  { patient := patient
    sessions := matchingSessions
    total := matchingSessions.foldl (fun sum s => sum + s.sessionPrice) 0
    childPatients :=
      if patient.billing_type = some "institution" then childPatientsOf patients patient.id
      else [] }

/-- Stable insertion step for the descending-total sort. -/
def insertByTotalDesc (b : PatientBilling) : List PatientBilling → List PatientBilling
  | [] => [b]
  | a :: rest => if a.total ≤ b.total then b :: a :: rest else a :: insertByTotalDesc b rest

/-- Stable sort by descending `total` (model of
`sort ((a, b) => b.total - a.total)`). -/
def sortByTotalDesc : List PatientBilling → List PatientBilling
  | [] => []
  | b :: rest => insertByTotalDesc b (sortByTotalDesc rest)

/-- Embedding of the `billingData` assembly. -/
def billingData (patients : List Patient) (events : List CalendarEvent)
    (aliasMap : List (String × String)) (overrideMap : List (String × ℚ)) :
    List PatientBilling :=
  sortByTotalDesc
    (((standalonePatients patients).map (billingFor patients aliasMap overrideMap events)).filter
      (fun b => !b.sessions.isEmpty))

/-- Insertion into the descending sort is a permutation. -/
theorem insertByTotalDesc_perm (b : PatientBilling) (l : List PatientBilling) :
    (insertByTotalDesc b l).Perm (b :: l) := by
  induction l with
  | nil => simp [insertByTotalDesc]
  | cons a rest ih =>
    by_cases h : a.total ≤ b.total
    · simp [insertByTotalDesc, h]
    · simp only [insertByTotalDesc, if_neg h]
      exact (ih.cons a).trans (List.Perm.swap b a rest)

/-- The descending sort is a permutation of its input. -/
theorem sortByTotalDesc_perm (l : List PatientBilling) :
    (sortByTotalDesc l).Perm l := by
  induction l with
  | nil => simp [sortByTotalDesc]
  | cons b rest ih =>
    exact (insertByTotalDesc_perm b (sortByTotalDesc rest)).trans (ih.cons b)

/-- Membership in the assembled billing data: exactly the non-empty lines of
standalone patients. -/
theorem mem_billingData_iff (patients : List Patient) (events : List CalendarEvent)
    (aliasMap : List (String × String)) (overrideMap : List (String × ℚ))
    (b : PatientBilling) :
    b ∈ billingData patients events aliasMap overrideMap ↔
      ∃ p ∈ standalonePatients patients,
        b = billingFor patients aliasMap overrideMap events p ∧ b.sessions ≠ [] := by
  unfold billingData
  rw [(sortByTotalDesc_perm _).mem_iff, List.mem_filter, List.mem_map]
  constructor
  · rintro ⟨⟨p, hp, rfl⟩, hne⟩
    exact ⟨p, hp, rfl, by simpa using hne⟩
  · rintro ⟨p, hp, rfl, hne⟩
    exact ⟨⟨p, hp, rfl⟩, by simpa using hne⟩

/-- Membership in the session list of one assembled billing line. -/
theorem mem_sessions_billingFor (patients : List Patient)
    (aliasMap : List (String × String)) (overrideMap : List (String × ℚ))
    (events : List CalendarEvent) (p : Patient) (s : Session) :
    s ∈ (billingFor patients aliasMap overrideMap events p).sessions ↔
      ∃ e ∈ billingEvents events,
        (patientsToMatch patients p).any (eventMatchesPatient aliasMap e) = true ∧
        s = sessionFor patients aliasMap overrideMap p e := by
  simp only [billingFor, List.mem_map, List.mem_filter]
  constructor
  · rintro ⟨e, ⟨he, hm⟩, rfl⟩
    exact ⟨e, he, hm, rfl⟩
  · rintro ⟨e, he, hm, rfl⟩
    exact ⟨e, ⟨he, hm⟩, rfl⟩

/-- Folding addition of session prices from an initial value. -/
theorem foldl_sessionPrice_eq_sum (l : List Session) (init : ℚ) :
    l.foldl (fun sum s => sum + s.sessionPrice) init
      = init + (l.map (fun s => s.sessionPrice)).sum := by
  induction l generalizing init with
  | nil => simp
  | cons a rest ih => simp [ih, add_assoc]

/-- C6: every session of every assembled billing line is priced from the
per-event override when one exists and from the matched patient's
`session_price` otherwise, and the line's total is the sum of the session
prices so computed. -/
theorem c6_override_priced_sessions (patients : List Patient)
    (events : List CalendarEvent) (aliasMap : List (String × String))
    (overrideMap : List (String × ℚ)) :
    ∀ b ∈ billingData patients events aliasMap overrideMap,
      (∀ s ∈ b.sessions, ∃ e ∈ events, e.id = s.eventId ∧
        s.sessionPrice =
          (match mapLookup overrideMap e.id with
            | some price => price
            | none => (matchedPatientFor patients aliasMap b.patient e).session_price)) ∧
      b.total = (b.sessions.map (fun s => s.sessionPrice)).sum := by
  intro b hb
  obtain ⟨p, hp, rfl, hne⟩ := (mem_billingData_iff _ _ _ _ _).mp hb
  constructor
  · intro s hs
    obtain ⟨e, he, hm, rfl⟩ := (mem_sessions_billingFor _ _ _ _ _ _).mp hs
    refine ⟨e, (List.mem_filter.mp he).1, rfl, ?_⟩
    simp [sessionFor, billingFor]
  · show (billingFor patients aliasMap overrideMap events p).total = _
    simp [billingFor, foldl_sessionPrice_eq_sum]

/-- Witness for C6 at a concrete input: one patient with default price 100 and
one event carrying an override of 150; the assembled line's total is the
override-aware session sum 150, not the default price. -/
theorem c6_override_priced_sessions_witness :
    ((billingData [⟨"p1", "dana", "", 100, none, none⟩] [⟨"e1", "dana", none⟩] []
        [("e1", 150)]).map fun b => b.total) = [150] := by
  have heval : billingData [⟨"p1", "dana", "", 100, none, none⟩] [⟨"e1", "dana", none⟩] []
      [("e1", 150)]
      = [⟨⟨"p1", "dana", "", 100, none, none⟩, [⟨"dana", "e1", none, 150⟩], 150, []⟩] := by
    simp [billingData, billingFor, standalonePatients, billingEvents, isBillingEvent,
      BILLING_COLOR_IDS, CANCELLED_COLOR_ID, patientsToMatch, childPatientsOf,
      eventMatchesPatient, findMatchingPatient, normalizeName, normList, jsTrim, trimLeft,
      trimRight, collapseWs, collapseWsAux, stripNiqqud, collapseDups, collapseDupsAux,
      isJsWs, isNiqqud, isLineTerm, jsToLower, mapLookup, sessionFor, matchedPatientFor,
      sortByTotalDesc, insertByTotalDesc, List.find?]
  have hmem : (⟨⟨"p1", "dana", "", 100, none, none⟩, [⟨"dana", "e1", none, 150⟩], 150, []⟩ :
      PatientBilling) ∈ billingData [⟨"p1", "dana", "", 100, none, none⟩]
        [⟨"e1", "dana", none⟩] [] [("e1", 150)] := by
    rw [heval]; exact List.mem_singleton.mpr rfl
  have h := (c6_override_priced_sessions [⟨"p1", "dana", "", 100, none, none⟩]
    [⟨"e1", "dana", none⟩] [] [("e1", 150)] _ hmem).2
  rw [heval, List.map_cons, List.map_nil, h]
  simp

/-- C8: an event participates in billing matching exactly when its color is
unset, "5" (notes done) or "3" (paid); in particular no session of any
assembled billing line comes from a cancelled-color ("4") event. -/
theorem c8_no_cancelled_sessions (patients : List Patient)
    (events : List CalendarEvent) (aliasMap : List (String × String))
    (overrideMap : List (String × ℚ)) :
    (∀ e, e ∈ billingEvents events ↔ e ∈ events ∧
      (e.colorId = none ∨ e.colorId = some "5" ∨ e.colorId = some "3")) ∧
    (∀ b ∈ billingData patients events aliasMap overrideMap, ∀ s ∈ b.sessions,
      ∃ e ∈ events, e.id = s.eventId ∧ e.colorId ≠ some CANCELLED_COLOR_ID ∧
        (e.colorId = none ∨ e.colorId = some "5" ∨ e.colorId = some "3")) := by
  have hiff : ∀ e : CalendarEvent, e ∈ billingEvents events ↔ e ∈ events ∧
      (e.colorId = none ∨ e.colorId = some "5" ∨ e.colorId = some "3") := by
    intro e
    rw [billingEvents, List.mem_filter]
    cases hc : e.colorId with
    | none => simp [isBillingEvent, hc]
    | some c =>
      by_cases h5 : c = "5"
      · simp [isBillingEvent, hc, h5, BILLING_COLOR_IDS, CANCELLED_COLOR_ID]
      · by_cases h3 : c = "3"
        · simp [isBillingEvent, hc, h3, BILLING_COLOR_IDS, CANCELLED_COLOR_ID]
        · simp [isBillingEvent, hc, h5, h3, BILLING_COLOR_IDS]
  refine ⟨hiff, fun b hb s hs => ?_⟩
  obtain ⟨p, hp, rfl, hne⟩ := (mem_billingData_iff _ _ _ _ _).mp hb
  obtain ⟨e, he, hm, rfl⟩ := (mem_sessions_billingFor _ _ _ _ _ _).mp hs
  obtain ⟨hee, hcol⟩ := (hiff e).mp he
  refine ⟨e, hee, rfl, ?_, hcol⟩
  rcases hcol with h | h | h <;> simp [h, CANCELLED_COLOR_ID]

/-- Witness for C8: a cancelled event is not a billing event, a yellow one
is; with one cancelled event the assembly produces no lines. -/
theorem c8_no_cancelled_sessions_witness :
    (⟨"e1", "dana", some "4"⟩ : CalendarEvent) ∉ billingEvents [⟨"e1", "dana", some "4"⟩] ∧
    (⟨"e2", "dana", some "5"⟩ : CalendarEvent) ∈ billingEvents [⟨"e2", "dana", some "5"⟩] := by
  constructor
  · intro hmem
    have h := ((c8_no_cancelled_sessions [] [⟨"e1", "dana", some "4"⟩] [] []).1 _).mp hmem
    rcases h.2 with hc | hc | hc <;> simp at hc
  · exact ((c8_no_cancelled_sessions [] [⟨"e2", "dana", some "5"⟩] [] []).1 _).mpr
      ⟨by simp, by simp⟩

/-- Auxiliary fold lemma behind `mapLookup_mem`. -/
theorem mapLookup_foldl_mem {α β : Type} [DecidableEq α] (k : α) (v : β) :
    ∀ (m : List (α × β)) (acc : Option β),
      m.foldl (fun acc kv => if kv.1 = k then some kv.2 else acc) acc = some v →
      (k, v) ∈ m ∨ acc = some v := by
  intro m
  induction m with
  | nil => exact fun acc h => Or.inr h
  | cons kv rest ih =>
    intro acc h
    rw [List.foldl_cons] at h
    rcases ih _ h with hm | hstep
    · exact Or.inl (List.mem_cons_of_mem _ hm)
    · by_cases hk : kv.1 = k
      · rw [if_pos hk] at hstep
        injection hstep with hv
        left
        have hkv : kv = (k, v) := by
          obtain ⟨a, b⟩ := kv
          simp only at hk hv
          rw [hk, hv]
        rw [hkv]
        exact List.mem_cons_self _ _
      · rw [if_neg hk] at hstep
        exact Or.inr hstep

/-- A successful `mapLookup` key-value pair occurs in the association list. -/
theorem mapLookup_mem {α β : Type} [DecidableEq α] (m : List (α × β)) (k : α) (v : β)
    (h : mapLookup m k = some v) : (k, v) ∈ m := by
  rcases mapLookup_foldl_mem k v m none h with hm | hc
  · exact hm
  · exact absurd hc (by simp)

/-- Characterization of the per-candidate match test: exact normalized match,
or alias hit whose target is this candidate. -/
theorem eventMatchesPatient_iff (aliasMap : List (String × String)) (e : CalendarEvent)
    (p : Patient) :
    eventMatchesPatient aliasMap e p = true ↔
      (normalizeName p.name = normalizeName e.summary ∨
       (normalizeName p.name ≠ normalizeName e.summary ∧
        mapLookup aliasMap (normalizeName e.summary) = some p.id)) := by
  unfold eventMatchesPatient findMatchingPatient
  by_cases hx : normalizeName p.name = normalizeName e.summary
  · simp [List.find?, hx]
  · have hb : (normalizeName p.name == normalizeName e.summary) = false :=
      beq_eq_false_iff_ne.mpr hx
    cases hm : mapLookup aliasMap (normalizeName e.summary) with
    | none => simp [List.find?, hx, hb, hm]
    | some pid =>
      by_cases hp : p.id = pid
      · have hbp : (p.id == pid) = true := beq_iff_eq.mpr hp
        simp [List.find?, hx, hb, hm, hbp, hp]
      · have hbp : (p.id == pid) = false := beq_eq_false_iff_ne.mpr hp
        simp only [List.find?, hb, hm, hbp]
        simp [hx]
        exact fun h => hp h.symm

/-- Membership in the effective match set of a standalone patient. -/
theorem mem_patientsToMatch (patients : List Patient) (q p : Patient) :
    p ∈ patientsToMatch patients q ↔
      p = q ∨ (q.billing_type = some "institution" ∧ p ∈ patients ∧
        p.parent_patient_id = some q.id) := by
  unfold patientsToMatch childPatientsOf
  by_cases hq : q.billing_type = some "institution" <;>
    simp [hq, List.mem_filter]

/-- Under unique ids and no nested institutions, the effective match sets of
distinct standalone patients are disjoint. -/
theorem patientsToMatch_disjoint (patients : List Patient)
    (h1 : (patients.map fun p => p.id).Nodup)
    (h3 : ∀ p ∈ patients, p.billing_type = some "institution" → p.parent_patient_id = none) :
    ∀ q1 ∈ standalonePatients patients, ∀ q2 ∈ standalonePatients patients,
      ∀ p, p ∈ patientsToMatch patients q1 → p ∈ patientsToMatch patients q2 → q1 = q2 := by
  intro q1 hq1 q2 hq2 p hp1 hp2
  obtain ⟨hq1m, hq1s⟩ := List.mem_filter.mp hq1
  obtain ⟨hq2m, hq2s⟩ := List.mem_filter.mp hq2
  have hstand : ∀ r : Patient, r ∈ patients →
      (r.parent_patient_id == none || r.billing_type == some "institution") = true →
      r.parent_patient_id = none := by
    intro r hr hrs
    rcases Bool.or_eq_true_iff.mp hrs with h | h
    · simpa using h
    · exact h3 r hr (by simpa using h)
  rcases (mem_patientsToMatch patients q1 p).mp hp1 with rfl | ⟨hi1, hpm1, hpar1⟩
  · rcases (mem_patientsToMatch patients q2 p).mp hp2 with rfl | ⟨hi2, hpm2, hpar2⟩
    · rfl
    · exact absurd hpar2 (by simp [hstand p hq1m hq1s])
  · rcases (mem_patientsToMatch patients q2 p).mp hp2 with rfl | ⟨hi2, hpm2, hpar2⟩
    · exact absurd hpar1 (by simp [hstand p hq2m hq2s])
    · have hid : q1.id = q2.id := by
        have := hpar1.symm.trans hpar2
        simpa using this
      exact List.inj_on_of_nodup_map h1 hq1m hq2m hid

/-- C9 (amended): under the data-model invariants (unique event ids, unique
patient ids, unique normalized patient names, no nested institutions) and
provided no alias entry sends a label into a different standalone scope than
an exact normalized match of that label, every billable calendar event
contributes a session to at most one billing line of the monthly assembly. -/
theorem c9_event_in_at_most_one_line (patients : List Patient)
    (events : List CalendarEvent) (aliasMap : List (String × String))
    (overrideMap : List (String × ℚ))
    (h0 : (events.map fun e => e.id).Nodup)
    (h1 : (patients.map fun p => p.id).Nodup)
    (h2 : (patients.map fun p => normalizeName p.name).Nodup)
    (h3 : ∀ p ∈ patients, p.billing_type = some "institution" → p.parent_patient_id = none)
    (h4 : ∀ kv ∈ aliasMap, ∀ s1 ∈ standalonePatients patients,
      ∀ s2 ∈ standalonePatients patients, ∀ p1 ∈ patientsToMatch patients s1,
      ∀ p2 ∈ patientsToMatch patients s2, normalizeName p1.name = kv.1 → p2.id = kv.2 →
      s1 = s2) :
    ∀ b1 ∈ billingData patients events aliasMap overrideMap,
      ∀ b2 ∈ billingData patients events aliasMap overrideMap,
      ∀ s1 ∈ b1.sessions, ∀ s2 ∈ b2.sessions, s1.eventId = s2.eventId → b1 = b2 := by
  have hsub : ∀ q ∈ standalonePatients patients, ∀ p, p ∈ patientsToMatch patients q →
      p ∈ patients := by
    intro q hq p hp
    rcases (mem_patientsToMatch patients q p).mp hp with rfl | ⟨_, hm, _⟩
    · exact (List.mem_filter.mp hq).1
    · exact hm
  intro b1 hb1 b2 hb2 s1 hs1 s2 hs2 hid
  obtain ⟨q1, hq1, rfl, hne1⟩ := (mem_billingData_iff _ _ _ _ _).mp hb1
  obtain ⟨q2, hq2, rfl, hne2⟩ := (mem_billingData_iff _ _ _ _ _).mp hb2
  obtain ⟨e1, he1, hm1, rfl⟩ := (mem_sessions_billingFor _ _ _ _ _ _).mp hs1
  obtain ⟨e2, he2, hm2, rfl⟩ := (mem_sessions_billingFor _ _ _ _ _ _).mp hs2
  have he1e : e1 ∈ events := (List.mem_filter.mp he1).1
  have he2e : e2 ∈ events := (List.mem_filter.mp he2).1
  have hee : e1 = e2 := by
    apply List.inj_on_of_nodup_map h0 he1e he2e
    simpa [sessionFor] using hid
  subst hee
  obtain ⟨p1, hp1, hmatch1⟩ := List.any_eq_true.mp hm1
  obtain ⟨p2, hp2, hmatch2⟩ := List.any_eq_true.mp hm2
  have hq12 : q1 = q2 := by
    rcases (eventMatchesPatient_iff _ _ _).mp hmatch1 with hx1 | ⟨hnx1, ha1⟩
    · rcases (eventMatchesPatient_iff _ _ _).mp hmatch2 with hx2 | ⟨hnx2, ha2⟩
      · have hp12 : p1 = p2 :=
          List.inj_on_of_nodup_map h2 (hsub q1 hq1 p1 hp1) (hsub q2 hq2 p2 hp2)
            (hx1.trans hx2.symm)
        exact patientsToMatch_disjoint patients h1 h3 q1 hq1 q2 hq2 p1 hp1 (hp12 ▸ hp2)
      · exact h4 _ (mapLookup_mem _ _ _ ha2) q1 hq1 q2 hq2 p1 hp1 p2 hp2 hx1 rfl
    · rcases (eventMatchesPatient_iff _ _ _).mp hmatch2 with hx2 | ⟨hnx2, ha2⟩
      · exact (h4 _ (mapLookup_mem _ _ _ ha1) q2 hq2 q1 hq1 p2 hp2 p1 hp1 hx2 rfl).symm
      · have hp12 : p1 = p2 := by
          have hidp : p1.id = p2.id := by
            have := ha1.symm.trans ha2
            simpa using this
          exact List.inj_on_of_nodup_map h1 (hsub q1 hq1 p1 hp1) (hsub q2 hq2 p2 hp2)
            hidp
        exact patientsToMatch_disjoint patients h1 h3 q1 hq1 q2 hq2 p1 hp1 (hp12 ▸ hp2)
  subst hq12
  rfl

/-- Counterexample for C9 as stated: an event whose label exactly matches one
patient while being aliased to another standalone patient appears in both
patients' billing lines. -/
theorem c9_counterexample :
    ((billingData [⟨"x", "xavier", "", 100, none, none⟩, ⟨"y", "a", "", 80, none, none⟩]
        [⟨"e1", "a", none⟩] [("a", "x")] []).map
      fun b => (b.patient.id, b.sessions.map fun s => s.eventId))
      = [("x", ["e1"]), ("y", ["e1"])] := by
  have hxa : normalizeName "xavier" = "xavier" := by decide
  have haa : normalizeName "a" = "a" := by decide
  have hbX : billingFor [⟨"x", "xavier", "", 100, none, none⟩, ⟨"y", "a", "", 80, none, none⟩]
      [("a", "x")] [] [⟨"e1", "a", none⟩] ⟨"x", "xavier", "", 100, none, none⟩
      = ⟨⟨"x", "xavier", "", 100, none, none⟩, [⟨"a", "e1", none, 100⟩], 100, []⟩ := by
    simp [billingFor, billingEvents, isBillingEvent, BILLING_COLOR_IDS, CANCELLED_COLOR_ID,
      patientsToMatch, childPatientsOf, eventMatchesPatient, findMatchingPatient, hxa, haa,
      mapLookup, sessionFor, matchedPatientFor, List.find?]
  have hbY : billingFor [⟨"x", "xavier", "", 100, none, none⟩, ⟨"y", "a", "", 80, none, none⟩]
      [("a", "x")] [] [⟨"e1", "a", none⟩] ⟨"y", "a", "", 80, none, none⟩
      = ⟨⟨"y", "a", "", 80, none, none⟩, [⟨"a", "e1", none, 80⟩], 80, []⟩ := by
    simp [billingFor, billingEvents, isBillingEvent, BILLING_COLOR_IDS, CANCELLED_COLOR_ID,
      patientsToMatch, childPatientsOf, eventMatchesPatient, findMatchingPatient, hxa, haa,
      mapLookup, sessionFor, matchedPatientFor, List.find?]
  have hstand : standalonePatients [⟨"x", "xavier", "", 100, none, none⟩,
      ⟨"y", "a", "", 80, none, none⟩] = [⟨"x", "xavier", "", 100, none, none⟩,
      ⟨"y", "a", "", 80, none, none⟩] := by decide
  unfold billingData
  rw [hstand, List.map_cons, List.map_cons, List.map_nil, hbX, hbY]
  norm_num [sortByTotalDesc, insertByTotalDesc, List.filter]

/-- Witness for the amended C9: with one patient and one matching event, the
theorem applies and forces the (unique) session-sharing lines to coincide. -/
theorem c9_event_in_at_most_one_line_witness :
    ∃ b ∈ billingData [⟨"y", "a", "", 80, none, none⟩] [⟨"e1", "a", none⟩] [] [],
      ∀ b2 ∈ billingData [⟨"y", "a", "", 80, none, none⟩] [⟨"e1", "a", none⟩] [] [],
        ∀ s ∈ b.sessions, ∀ s2 ∈ b2.sessions, s.eventId = s2.eventId → b = b2 := by
  have heval : billingData [⟨"y", "a", "", 80, none, none⟩] [⟨"e1", "a", none⟩] [] []
      = [⟨⟨"y", "a", "", 80, none, none⟩, [⟨"a", "e1", none, 80⟩], 80, []⟩] := by
    simp [billingData, billingFor, standalonePatients, billingEvents, isBillingEvent,
      BILLING_COLOR_IDS, CANCELLED_COLOR_ID, patientsToMatch, childPatientsOf,
      eventMatchesPatient, findMatchingPatient, normalizeName, normList, jsTrim, trimLeft,
      trimRight, collapseWs, collapseWsAux, stripNiqqud, collapseDups, collapseDupsAux,
      isJsWs, isNiqqud, isLineTerm, jsToLower, mapLookup, sessionFor, matchedPatientFor,
      sortByTotalDesc, insertByTotalDesc, List.find?]
  refine ⟨_, by rw [heval]; exact List.mem_singleton.mpr rfl, ?_⟩
  exact c9_event_in_at_most_one_line [⟨"y", "a", "", 80, none, none⟩] [⟨"e1", "a", none⟩]
    [] [] (by decide) (by decide) (by decide)
    (by decide) (by decide) _ (by rw [heval]; exact List.mem_singleton.mpr rfl)

/-- Payment row of the `payments` table (fields touched by the auto-sync). -/
structure Payment where
  id : String
  therapist_id : String
  patient_id : String
  month : String
  amount : ℚ
  session_count : Nat
  paid : Bool
  paid_at : Option String
  paid_event_ids : List String
  deriving DecidableEq

/-- One entry of the `updates` array assembled by the auto-sync effect. -/
structure SyncUpdate where
  patientId : String
  purpleEventIds : List String
  total : ℚ
  deriving DecidableEq

/-- Model of `Array.from (new Set (l))`: first occurrences in insertion
order. -/
def dedupKeep : List String → List String
  | [] => []
  | a :: rest => a :: dedupKeep (rest.filter fun b => b != a)
termination_by l => l.length
decreasing_by
  simp only [List.length_cons]
  exact Nat.lt_succ_of_le (List.length_filter_le _ _)

/-- Membership is unchanged by `dedupKeep`. -/
theorem mem_dedupKeep (x : String) : ∀ l : List String, x ∈ dedupKeep l ↔ x ∈ l := by
  have key : ∀ n : Nat, ∀ l : List String, l.length ≤ n → (x ∈ dedupKeep l ↔ x ∈ l) := by
    intro n
    induction n with
    | zero =>
      intro l hn
      rw [List.length_eq_zero.mp (Nat.le_zero.mp hn)]
      simp [dedupKeep]
    | succ n ih =>
      intro l hn
      cases l with
      | nil => simp [dedupKeep]
      | cons a rest =>
        rw [dedupKeep]
        by_cases hx : x = a
        · simp [hx]
        · have hlen : (rest.filter fun b => b != a).length ≤ n :=
            le_trans (List.length_filter_le _ _)
              (Nat.succ_le_succ_iff.mp (by simpa using hn))
          rw [List.mem_cons, ih _ hlen]
          simp [hx, List.mem_filter]
  exact fun l => key l.length l le_rfl

/-- Sessions of a billing line whose underlying event currently carries the
paid (purple, "3") color. -/
def purpleSessionsOf (events : List CalendarEvent) (b : PatientBilling) : List Session :=
  b.sessions.filter fun s =>
    (match events.find? (fun e => e.id == s.eventId) with
      | some e => e.colorId == some "3"
      | none => false) && s.eventId != ""

/-- The `payments.find (p => p.patient_id === ...)` lookup. -/
def findPayment (payments : List Payment) (pid : String) : Option Payment :=
  payments.find? fun p => p.patient_id == pid

/-- The update entry the auto-sync pushes for one billing line, if any: the
purple sessions not yet recorded in the existing payment's `paid_event_ids`,
unioned into it, with `total = |allPaidIds| * patient.session_price`. -/
def mkSyncUpdate (payments : List Payment) (events : List CalendarEvent)
    (b : PatientBilling) : Option SyncUpdate :=
  let purpleSessions := purpleSessionsOf events b
  if purpleSessions.isEmpty then none
  else
    let existingPaidIds := dedupKeep
      (match findPayment payments b.patient.id with
        | some p => p.paid_event_ids
        | none => [])
    let newPurpleIds := (purpleSessions.map fun s => s.eventId).filter
      fun i => !existingPaidIds.contains i
    if newPurpleIds.isEmpty then none
    else
      let allPaidIds := existingPaidIds ++ newPurpleIds
      some ⟨b.patient.id, allPaidIds, (allPaidIds.length : ℚ) * b.patient.session_price⟩

/-- The full `updates` list assembled by the auto-sync effect. -/
def computeUpdates (billing : List PatientBilling) (events : List CalendarEvent)
    (payments : List Payment) : List SyncUpdate :=
  billing.filterMap (mkSyncUpdate payments events)

/-- The `allPaid` check of `syncPayments`: the number of recorded paid ids
equals the number of sessions of that patient's line. -/
def allPaidFlag (billing : List PatientBilling) (u : SyncUpdate) : Bool :=
  match billing.find? (fun b => b.patient.id == u.patientId) with
  | some b => b.sessions.length == u.purpleEventIds.length
  | none => false

/-- One iteration of the `syncPayments` loop: update the existing row by id,
or insert a fresh row (its id produced by the database, modeled by `genId`).
The existence check reads the `payments` array captured by the closure, while
the write goes to the evolving database state `db`. -/
def applyUpdate (billing : List PatientBilling) (payments : List Payment)
    (user now month : String) (genId : String → String)
    (db : List Payment) (u : SyncUpdate) : List Payment :=
  match findPayment payments u.patientId with
  | some existingPayment =>
      db.map fun p =>
        if p.id = existingPayment.id then
          { p with paid := allPaidFlag billing u, paid_at := some now, amount := u.total,
                   session_count := u.purpleEventIds.length,
                   paid_event_ids := u.purpleEventIds }
        else p
  | none =>
      db ++ [⟨genId u.patientId, user, u.patientId, month, u.total,
              u.purpleEventIds.length, allPaidFlag billing u, some now, u.purpleEventIds⟩]

/-- One full pass of the auto-sync effect over the month's payment table. -/
def runAutoSync (billing : List PatientBilling) (events : List CalendarEvent)
    (payments : List Payment) (user now month : String) (genId : String → String) :
    List Payment :=
  (computeUpdates billing events payments).foldl
    (applyUpdate billing payments user now month genId) payments

/-- C3 (code evaluated at the failing input): with one patient whose default
price is 100 and one paid-colored session overridden to 150, the auto-sync
writes `amount = 100` (session count times the patient's default price) while
the override-aware sum of the paid sessions' prices is 150. -/
theorem c3_sync_amount_ignores_overrides :
    (computeUpdates
        (billingData [⟨"p1", "dana", "", 100, none, none⟩] [⟨"e1", "dana", some "3"⟩] []
          [("e1", 150)])
        [⟨"e1", "dana", some "3"⟩] [])
      = [⟨"p1", ["e1"], 100⟩] ∧
    ((billingData [⟨"p1", "dana", "", 100, none, none⟩] [⟨"e1", "dana", some "3"⟩] []
        [("e1", 150)]).map fun b =>
      ((purpleSessionsOf [⟨"e1", "dana", some "3"⟩] b).map fun s => s.sessionPrice).sum)
      = [150] ∧
    (100 : ℚ) ≠ 150 := by
  have heval : billingData [⟨"p1", "dana", "", 100, none, none⟩] [⟨"e1", "dana", some "3"⟩] []
      [("e1", 150)]
      = [⟨⟨"p1", "dana", "", 100, none, none⟩, [⟨"dana", "e1", none, 150⟩], 150, []⟩] := by
    simp [billingData, billingFor, standalonePatients, billingEvents, isBillingEvent,
      BILLING_COLOR_IDS, CANCELLED_COLOR_ID, patientsToMatch, childPatientsOf,
      eventMatchesPatient, findMatchingPatient, normalizeName, normList, jsTrim, trimLeft,
      trimRight, collapseWs, collapseWsAux, stripNiqqud, collapseDups, collapseDupsAux,
      isJsWs, isNiqqud, isLineTerm, jsToLower, mapLookup, sessionFor, matchedPatientFor,
      sortByTotalDesc, insertByTotalDesc, List.find?]
  rw [heval]
  refine ⟨?_, ?_, by norm_num⟩
  · simp [computeUpdates, mkSyncUpdate, purpleSessionsOf, findPayment, dedupKeep,
      List.find?, List.filterMap]
  · simp [purpleSessionsOf, List.find?]

/-- Row correspondence used by the sync invariant: same primary key and same
patient id. -/
def SameRow (r0 r : Payment) : Prop := r.id = r0.id ∧ r.patient_id = r0.patient_id

/-- Invariant of the payment table while the `syncPayments` loop runs: the
original rows persist in place (ids and patient ids intact), followed by
inserted rows whose ids are fresh with respect to the original table and whose
patient ids belong to no still-unprocessed update. -/
def SyncInv (orig : List Payment) (pids : List String) (db : List Payment) : Prop :=
  ∃ core ins, db = core ++ ins ∧ List.Forall₂ SameRow orig core ∧
    ∀ r ∈ ins, r.id ∉ orig.map (fun p => p.id) ∧ r.patient_id ∉ pids

/-- The invariant holds initially. -/
theorem SyncInv_init (orig : List Payment) (pids : List String) : SyncInv orig pids orig :=
  ⟨orig, [], by simp, List.forall₂_same.mpr fun _ _ => ⟨rfl, rfl⟩, by simp⟩

/-- `findPayment` over the original rows and over their preserved images
agree: both miss together, and hits carry the same id and patient id. -/
theorem findPayment_align (orig core : List Payment)
    (h : List.Forall₂ SameRow orig core) (x : String) :
    (findPayment orig x = none → findPayment core x = none) ∧
    (∀ o, findPayment orig x = some o →
      ∃ c, findPayment core x = some c ∧ SameRow o c) := by
  induction h with
  | nil => simp [findPayment, List.find?]
  | @cons o0 c0 l1 l2 hr ht ih =>
    unfold findPayment at ih ⊢
    by_cases hx : o0.patient_id = x
    · have ho0 : List.find? (fun p => p.patient_id == x) (o0 :: l1) = some o0 :=
        List.find?_cons_of_pos _ (beq_iff_eq.mpr hx)
      have hc0 : List.find? (fun p => p.patient_id == x) (c0 :: l2) = some c0 :=
        List.find?_cons_of_pos _ (beq_iff_eq.mpr (hr.2.trans hx))
      rw [ho0, hc0]
      constructor
      · simp
      · intro o ho
        injection ho with ho
        refine ⟨c0, rfl, ?_⟩
        rw [← ho]
        exact hr
    · rw [List.find?_cons_of_neg _ (by simp [hx]),
        List.find?_cons_of_neg _ (by simp [hr.2]; exact fun hc => hx hc)]
      exact ih

/-- A member of the right side of a `Forall₂` has a related member on the
left. -/
theorem forall₂_mem_right {α β : Type} {R : α → β → Prop} :
    ∀ {l1 : List α} {l2 : List β}, List.Forall₂ R l1 l2 → ∀ b ∈ l2, ∃ a ∈ l1, R a b := by
  intro l1 l2 h
  induction h with
  | nil => simp
  | cons hr ht ih =>
    intro b hb
    rcases List.mem_cons.mp hb with rfl | hb2
    · exact ⟨_, List.mem_cons_self _ _, hr⟩
    · obtain ⟨a, ha, hra⟩ := ih b hb2
      exact ⟨a, List.mem_cons_of_mem _ ha, hra⟩

/-- `findPayment` commutes with a map that preserves patient ids. -/
theorem findPayment_map (db : List Payment) (f : Payment → Payment)
    (hf : ∀ p, (f p).patient_id = p.patient_id) (x : String) :
    findPayment (db.map f) x = (findPayment db x).map f := by
  unfold findPayment
  have hpred : ((fun p : Payment => p.patient_id == x) ∘ f)
      = (fun p : Payment => p.patient_id == x) := by
    funext p
    simp [Function.comp, hf]
  rw [List.find?_map, hpred]

/-- `findPayment` over an appended table. -/
theorem findPayment_append (l1 l2 : List Payment) (x : String) :
    findPayment (l1 ++ l2) x = (findPayment l1 x).or (findPayment l2 x) :=
  List.find?_append

/-- The invariant survives one `applyUpdate` step, consuming its update's
patient id. -/
theorem SyncInv_step (billing : List PatientBilling) (orig : List Payment)
    (user now month : String) (genId : String → String) (pids : List String)
    (db : List Payment) (u : SyncUpdate)
    (hinv : SyncInv orig (u.patientId :: pids) db)
    (hgen : ∀ s, genId s ∉ orig.map fun p => p.id)
    (hu : u.patientId ∉ pids) :
    SyncInv orig pids (applyUpdate billing orig user now month genId db u) := by
  obtain ⟨core, ins, rfl, hcore, hins⟩ := hinv
  cases hfind : findPayment orig u.patientId with
  | some existing =>
    simp only [applyUpdate, hfind]
    rw [List.map_append]
    refine ⟨_, _, rfl, ?_, ?_⟩
    · rw [List.forall₂_map_right_iff]
      refine hcore.imp fun a b hab => ?_
      by_cases hb : b.id = existing.id
      · rw [if_pos hb]
        exact ⟨hab.1, hab.2⟩
      · rw [if_neg hb]
        exact hab
    · intro r hr
      obtain ⟨r0, hr0, rfl⟩ := List.mem_map.mp hr
      obtain ⟨hid0, hpid0⟩ := hins r0 hr0
      by_cases hb : r0.id = existing.id
      · rw [if_pos hb]
        exact ⟨hid0, fun hc => hpid0 (List.mem_cons_of_mem _ hc)⟩
      · rw [if_neg hb]
        exact ⟨hid0, fun hc => hpid0 (List.mem_cons_of_mem _ hc)⟩
  | none =>
    simp only [applyUpdate, hfind]
    rw [List.append_assoc]
    refine ⟨core, _, rfl, hcore, ?_⟩
    intro r hr
    rcases List.mem_append.mp hr with hr1 | hr2
    · obtain ⟨hid0, hpid0⟩ := hins r hr1
      exact ⟨hid0, fun hc => hpid0 (List.mem_cons_of_mem _ hc)⟩
    · rw [List.mem_singleton.mp hr2]
      exact ⟨hgen u.patientId, hu⟩

/-- A `findPayment` hit has the looked-up patient id. -/
theorem findPayment_some_pid {payments : List Payment} {x : String} {r : Payment}
    (h : findPayment payments x = some r) : r.patient_id = x := by
  unfold findPayment at h
  have hp := List.find?_some h
  exact beq_iff_eq.mp (by simpa using hp)

/-- Definitional: `or` of a `some` keeps the `some`. -/
theorem option_some_or {α : Type} (a : α) (o : Option α) : (some a).or o = some a := rfl

/-- A single `applyUpdate` leaves the lookup of every other patient id
unchanged. -/
theorem findPayment_applyUpdate_untouched (billing : List PatientBilling)
    (orig : List Payment) (user now month : String) (genId : String → String)
    (pids : List String) (db : List Payment) (u : SyncUpdate) (x : String)
    (hO : (orig.map fun p => p.id).Nodup)
    (hinv : SyncInv orig (u.patientId :: pids) db)
    (hx : x ≠ u.patientId) :
    findPayment (applyUpdate billing orig user now month genId db u) x
      = findPayment db x := by
  obtain ⟨core, ins, rfl, hcore, hins⟩ := hinv
  cases hfind : findPayment orig u.patientId with
  | some existing =>
    simp only [applyUpdate, hfind]
    have hexmem : existing ∈ orig := List.mem_of_find?_eq_some hfind
    have hexpid : existing.patient_id = u.patientId := findPayment_some_pid hfind
    rw [findPayment_map _ _ (fun p => by by_cases hb : p.id = existing.id <;> simp [hb]) x]
    cases hr : findPayment (core ++ ins) x with
    | none => rfl
    | some r =>
      have hrmem : r ∈ core ++ ins := List.mem_of_find?_eq_some hr
      have hrpid : r.patient_id = x := findPayment_some_pid hr
      have hne : ¬r.id = existing.id := by
        rcases List.mem_append.mp hrmem with hrc | hri
        · obtain ⟨o, ho, hsame⟩ := forall₂_mem_right hcore r hrc
          intro hcontra
          have hoe : o = existing :=
            List.inj_on_of_nodup_map hO ho hexmem (by rw [← hsame.1, hcontra])
          apply hx
          rw [← hrpid, hsame.2, hoe, hexpid]
        · intro hcontra
          exact (hins r hri).1 (hcontra ▸ List.mem_map_of_mem _ hexmem)
      simp [hne]
  | none =>
    simp only [applyUpdate, hfind]
    rw [findPayment_append]
    have hnone : findPayment [⟨genId u.patientId, user, u.patientId, month, u.total,
        u.purpleEventIds.length, allPaidFlag billing u, some now, u.purpleEventIds⟩] x
        = none := by
      unfold findPayment
      apply find?_none_of_all
      intro p hp
      rw [List.mem_singleton.mp hp]
      exact beq_eq_false_iff_ne.mpr fun hc => hx hc.symm
    rw [hnone, Option.or_none]

/-- The whole `syncPayments` fold leaves the lookup of any patient id with no
pending update unchanged. -/
theorem findPayment_foldl_untouched (billing : List PatientBilling)
    (orig : List Payment) (user now month : String) (genId : String → String)
    (hO : (orig.map fun p => p.id).Nodup)
    (hgen : ∀ s, genId s ∉ orig.map fun p => p.id) :
    ∀ (us : List SyncUpdate) (db : List Payment) (x : String),
      SyncInv orig (us.map fun u => u.patientId) db →
      (us.map fun u => u.patientId).Nodup →
      x ∉ us.map (fun u => u.patientId) →
      findPayment (us.foldl (applyUpdate billing orig user now month genId) db) x
        = findPayment db x := by
  intro us
  induction us with
  | nil => intro db x _ _ _; rfl
  | cons u rest ih =>
    intro db x hinv hnd hx
    rw [List.foldl_cons]
    have hxu : x ≠ u.patientId := fun hc => hx (by simp [hc])
    rw [List.map_cons] at hinv hnd
    have hnd2 := List.nodup_cons.mp hnd
    have hinv0 : SyncInv orig (u.patientId :: rest.map fun u => u.patientId) db := hinv
    have hinv2 := SyncInv_step billing orig user now month genId _ db u hinv0 hgen hnd2.1
    rw [ih _ x hinv2 hnd2.2 fun hc => hx (by simp [hc])]
    exact findPayment_applyUpdate_untouched billing orig user now month genId _ db u x hO
      hinv0 hxu

/-- After the whole `syncPayments` fold, the row of each updated patient
records exactly that update's paid event ids. -/
theorem findPayment_foldl_updated (billing : List PatientBilling)
    (orig : List Payment) (user now month : String) (genId : String → String)
    (hO : (orig.map fun p => p.id).Nodup)
    (hgen : ∀ s, genId s ∉ orig.map fun p => p.id) :
    ∀ (us : List SyncUpdate) (db : List Payment),
      SyncInv orig (us.map fun u => u.patientId) db →
      (us.map fun u => u.patientId).Nodup →
      ∀ u ∈ us, ∃ r,
        findPayment (us.foldl (applyUpdate billing orig user now month genId) db)
          u.patientId = some r ∧ r.paid_event_ids = u.purpleEventIds := by
  intro us
  induction us with
  | nil => intro db _ _ u hu; exact absurd hu (List.not_mem_nil u)
  | cons w rest ih =>
    intro db hinv hnd u hu
    rw [List.foldl_cons]
    rw [List.map_cons] at hinv hnd
    have hnd2 := List.nodup_cons.mp hnd
    have hinv0 : SyncInv orig (w.patientId :: rest.map fun u => u.patientId) db := hinv
    have hinv2 := SyncInv_step billing orig user now month genId _ db w hinv0 hgen hnd2.1
    rcases List.mem_cons.mp hu with rfl | hur
    · obtain ⟨core, ins, rfl, hcore, hins⟩ := hinv0
      have hstep : ∃ r,
          findPayment (applyUpdate billing orig user now month genId (core ++ ins) u)
            u.patientId = some r ∧ r.paid_event_ids = u.purpleEventIds := by
        cases hfind : findPayment orig u.patientId with
        | some existing =>
          simp only [applyUpdate, hfind]
          obtain ⟨c, hc, hsame⟩ := (findPayment_align orig core hcore u.patientId).2
            existing hfind
          rw [findPayment_map _ _ (fun p => by
            by_cases hb : p.id = existing.id <;> simp [hb]) u.patientId,
            findPayment_append, hc, option_some_or, Option.map_some']
          refine ⟨_, rfl, ?_⟩
          dsimp only
          rw [if_pos hsame.1]
        | none =>
          simp only [applyUpdate, hfind]
          rw [findPayment_append]
          have h1 : findPayment core u.patientId = none :=
            (findPayment_align orig core hcore u.patientId).1 hfind
          have h2 : findPayment ins u.patientId = none := by
            unfold findPayment
            apply find?_none_of_all
            intro p hp
            exact beq_eq_false_iff_ne.mpr fun hc =>
              ((hins p hp).2 (hc ▸ List.mem_cons_self _ _))
          rw [findPayment_append, h1, h2, Option.none_or, Option.none_or]
          unfold findPayment
          rw [List.find?_cons_of_pos _ (by simp)]
          exact ⟨_, rfl, rfl⟩
      obtain ⟨r, hr, hpe⟩ := hstep
      rw [findPayment_foldl_untouched billing orig user now month genId hO hgen rest _
        u.patientId hinv2 hnd2.2 hnd2.1]
      exact ⟨r, hr, hpe⟩
    · exact ih _ hinv2 hnd2.2 u hur

/-- Paid event ids currently stored for a patient (empty when no row). -/
def paidIdsFor (payments : List Payment) (pid : String) : List String :=
  match findPayment payments pid with
  | some p => p.paid_event_ids
  | none => []

/-- The purple event ids of a line not yet recorded in its payment row. -/
def newPurpleFor (payments : List Payment) (events : List CalendarEvent)
    (b : PatientBilling) : List String :=
  ((purpleSessionsOf events b).map fun s => s.eventId).filter
    fun i => !(dedupKeep (paidIdsFor payments b.patient.id)).contains i

/-- Characterization of `mkSyncUpdate` with its local bindings named. -/
theorem mkSyncUpdate_eq (payments : List Payment) (events : List CalendarEvent)
    (b : PatientBilling) :
    mkSyncUpdate payments events b =
      (if (purpleSessionsOf events b).isEmpty then none
       else if (newPurpleFor payments events b).isEmpty then none
       else some ⟨b.patient.id,
         dedupKeep (paidIdsFor payments b.patient.id) ++ newPurpleFor payments events b,
         ((dedupKeep (paidIdsFor payments b.patient.id)
            ++ newPurpleFor payments events b).length : ℚ) * b.patient.session_price⟩) :=
  rfl

/-- An emitted update targets its own billing line's patient. -/
theorem mkSyncUpdate_some_pid (payments : List Payment) (events : List CalendarEvent)
    (b : PatientBilling) (u : SyncUpdate) (h : mkSyncUpdate payments events b = some u) :
    u.patientId = b.patient.id := by
  rw [mkSyncUpdate_eq] at h
  by_cases h1 : (purpleSessionsOf events b).isEmpty
  · rw [if_pos h1] at h
    exact absurd h (by simp)
  · rw [if_neg h1] at h
    by_cases h2 : (newPurpleFor payments events b).isEmpty
    · rw [if_pos h2] at h
      exact absurd h (by simp)
    · rw [if_neg h2] at h
      injection h with h
      rw [← h]

/-- Every purple event id of the line is recorded in an emitted update. -/
theorem mkSyncUpdate_some_covers (payments : List Payment) (events : List CalendarEvent)
    (b : PatientBilling) (u : SyncUpdate) (h : mkSyncUpdate payments events b = some u) :
    ∀ i ∈ (purpleSessionsOf events b).map fun s => s.eventId, i ∈ u.purpleEventIds := by
  rw [mkSyncUpdate_eq] at h
  by_cases h1 : (purpleSessionsOf events b).isEmpty
  · rw [if_pos h1] at h
    exact absurd h (by simp)
  · rw [if_neg h1] at h
    by_cases h2 : (newPurpleFor payments events b).isEmpty
    · rw [if_pos h2] at h
      exact absurd h (by simp)
    · rw [if_neg h2] at h
      injection h with h
      intro i hi
      rw [← h]
      by_cases hc : (dedupKeep (paidIdsFor payments b.patient.id)).contains i
      · exact List.mem_append_left _ (List.elem_iff.mp hc)
      · refine List.mem_append_right _ ?_
        unfold newPurpleFor
        refine List.mem_filter.mpr ⟨hi, ?_⟩
        cases hb : (dedupKeep (paidIdsFor payments b.patient.id)).contains i with
        | true => exact absurd hb hc
        | false => rfl

/-- When the stored payment already covers every purple event id, no update is
emitted. -/
theorem mkSyncUpdate_eq_none (payments : List Payment) (events : List CalendarEvent)
    (b : PatientBilling) (r : Payment)
    (hr : findPayment payments b.patient.id = some r)
    (hcov : ∀ i ∈ (purpleSessionsOf events b).map fun s => s.eventId,
      i ∈ r.paid_event_ids) :
    mkSyncUpdate payments events b = none := by
  rw [mkSyncUpdate_eq]
  by_cases h1 : (purpleSessionsOf events b).isEmpty
  · rw [if_pos h1]
  · rw [if_neg h1]
    have hids : paidIdsFor payments b.patient.id = r.paid_event_ids := by
      unfold paidIdsFor
      rw [hr]
    have h2 : (newPurpleFor payments events b).isEmpty = true := by
      rw [List.isEmpty_iff]
      unfold newPurpleFor
      rw [hids, List.filter_eq_nil_iff]
      intro i hi
      have hmem : (dedupKeep r.paid_event_ids).contains i = true :=
        List.elem_iff.mpr ((mem_dedupKeep i _).mpr (hcov i hi))
      rw [hmem]
      simp
    rw [if_pos h2]

/-- If a line with purple sessions emits no update, the stored payment covers
all its purple event ids. -/
theorem mkSyncUpdate_none_inv (payments : List Payment) (events : List CalendarEvent)
    (b : PatientBilling) (h : mkSyncUpdate payments events b = none)
    (hpur : ¬(purpleSessionsOf events b).isEmpty) :
    ∃ r, findPayment payments b.patient.id = some r ∧
      ∀ i ∈ (purpleSessionsOf events b).map fun s => s.eventId,
        i ∈ r.paid_event_ids := by
  rw [mkSyncUpdate_eq, if_neg hpur] at h
  by_cases h2 : (newPurpleFor payments events b).isEmpty
  · cases hfp : findPayment payments b.patient.id with
    | none =>
      exfalso
      have hids : paidIdsFor payments b.patient.id = [] := by
        unfold paidIdsFor
        rw [hfp]
      have hempty := List.isEmpty_iff.mp h2
      unfold newPurpleFor at hempty
      rw [hids, List.filter_eq_nil_iff] at hempty
      obtain ⟨s, hs⟩ := List.exists_mem_of_ne_nil (purpleSessionsOf events b)
        fun hnil => hpur (by rw [hnil]; rfl)
      exact hempty s.eventId (List.mem_map_of_mem _ hs) (by simp [dedupKeep])
    | some r =>
      refine ⟨r, rfl, fun i hi => ?_⟩
      have hids : paidIdsFor payments b.patient.id = r.paid_event_ids := by
        unfold paidIdsFor
        rw [hfp]
      have hempty := List.isEmpty_iff.mp h2
      unfold newPurpleFor at hempty
      rw [hids, List.filter_eq_nil_iff] at hempty
      have hc := hempty i hi
      rw [← mem_dedupKeep i r.paid_event_ids]
      refine List.elem_iff.mp ?_
      cases hb : (dedupKeep r.paid_event_ids).contains i with
      | true => exact hb
      | false => exact absurd (by rw [hb]; rfl) hc
  · rw [if_neg h2] at h
    exact absurd h (by simp)

/-- The patient ids of the emitted updates form a sublist of the billing
lines' patient ids. -/
theorem computeUpdates_pids_sublist (billing : List PatientBilling)
    (events : List CalendarEvent) (payments : List Payment) :
    ((computeUpdates billing events payments).map fun u => u.patientId).Sublist
      (billing.map fun b => b.patient.id) := by
  induction billing with
  | nil => simp [computeUpdates]
  | cons b rest ih =>
    rw [computeUpdates, List.filterMap_cons]
    rw [computeUpdates] at ih
    cases h : mkSyncUpdate payments events b with
    | none =>
      rw [List.map_cons]
      exact ih.cons _
    | some u =>
      rw [List.map_cons, List.map_cons, mkSyncUpdate_some_pid payments events b u h]
      exact ih.cons₂ _

/-- Unique patient ids in the roster give unique patient ids across billing
lines. -/
theorem billingData_pids_nodup (patients : List Patient) (events : List CalendarEvent)
    (aliasMap : List (String × String)) (overrideMap : List (String × ℚ))
    (hpat : (patients.map fun p => p.id).Nodup) :
    ((billingData patients events aliasMap overrideMap).map fun b => b.patient.id).Nodup := by
  unfold billingData
  rw [((sortByTotalDesc_perm _).map fun b => b.patient.id).nodup_iff]
  apply List.Nodup.sublist (List.Sublist.map _ (List.filter_sublist _))
  rw [List.map_map]
  have hcomp : ((fun b => b.patient.id) ∘ billingFor patients aliasMap overrideMap events)
      = fun p : Patient => p.id := funext fun p => rfl
  rw [hcomp]
  exact List.Nodup.sublist (List.Sublist.map _ (List.filter_sublist _)) hpat

/-- C2: running the monthly auto-sync a second time, against the same
calendar events and the payment state produced by the first run, computes an
empty update list — no payment row is inserted or updated. The hypotheses are
the database invariants: unique patient ids, unique payment row ids, and
database-generated ids that are fresh. -/
theorem c2_auto_sync_idempotent (patients : List Patient) (events : List CalendarEvent)
    (aliasMap : List (String × String)) (overrideMap : List (String × ℚ))
    (payments : List Payment) (user now month : String) (genId : String → String)
    (hpat : (patients.map fun p => p.id).Nodup)
    (hpay : (payments.map fun p => p.id).Nodup)
    (hgen : ∀ s, genId s ∉ payments.map fun p => p.id) :
    computeUpdates (billingData patients events aliasMap overrideMap) events
      (runAutoSync (billingData patients events aliasMap overrideMap) events payments
        user now month genId) = [] := by
  have hbdn : ((billingData patients events aliasMap overrideMap).map
      fun b => b.patient.id).Nodup :=
    billingData_pids_nodup patients events aliasMap overrideMap hpat
  have husn : (((computeUpdates (billingData patients events aliasMap overrideMap) events
      payments)).map fun u => u.patientId).Nodup :=
    List.Nodup.sublist (computeUpdates_pids_sublist _ events payments) hbdn
  rw [computeUpdates, List.filterMap_eq_nil_iff]
  intro b hb
  cases hmk : mkSyncUpdate payments events b with
  | some u =>
    have humem : u ∈ computeUpdates (billingData patients events aliasMap overrideMap)
        events payments :=
      List.mem_filterMap.mpr ⟨b, hb, hmk⟩
    have hupid : u.patientId = b.patient.id := mkSyncUpdate_some_pid _ _ _ _ hmk
    obtain ⟨r, hr, hpe⟩ := findPayment_foldl_updated
      (billingData patients events aliasMap overrideMap) payments user now month genId
      hpay hgen _ payments (SyncInv_init _ _) husn u humem
    refine mkSyncUpdate_eq_none _ _ _ r (by rw [← hupid]; exact hr) fun i hi => ?_
    rw [hpe]
    exact mkSyncUpdate_some_covers _ _ _ _ hmk i hi
  | none =>
    by_cases hpur : (purpleSessionsOf events b).isEmpty
    · rw [mkSyncUpdate_eq, if_pos hpur]
    · obtain ⟨r, hrfind, hcov⟩ := mkSyncUpdate_none_inv _ _ _ hmk hpur
      have hnot : b.patient.id ∉ (computeUpdates
          (billingData patients events aliasMap overrideMap) events payments).map
            fun u => u.patientId := by
        intro hc
        obtain ⟨u, hu, hpidu⟩ := List.mem_map.mp hc
        obtain ⟨b2, hb2, hmk2⟩ := List.mem_filterMap.mp hu
        have hb2id : b2.patient.id = b.patient.id := by
          rw [← mkSyncUpdate_some_pid _ _ _ _ hmk2, hpidu]
        have hbb : b2 = b := List.inj_on_of_nodup_map hbdn hb2 hb hb2id
        rw [hbb, hmk] at hmk2
        cases hmk2
      have hfind2 : findPayment (runAutoSync
          (billingData patients events aliasMap overrideMap) events payments user now
          month genId) b.patient.id = findPayment payments b.patient.id :=
        findPayment_foldl_untouched _ payments user now month genId hpay hgen _ payments
          b.patient.id (SyncInv_init _ _) husn hnot
      exact mkSyncUpdate_eq_none _ _ _ r (by rw [hfind2]; exact hrfind) hcov

/-- Witness for C2 at a concrete input: one patient, one purple event, empty
payment table; a second sync pass after the first one computes no updates. -/
theorem c2_auto_sync_idempotent_witness :
    computeUpdates
      (billingData [⟨"p1", "dana", "", 100, none, none⟩] [⟨"e1", "dana", some "3"⟩] [] [])
      [⟨"e1", "dana", some "3"⟩]
      (runAutoSync
        (billingData [⟨"p1", "dana", "", 100, none, none⟩] [⟨"e1", "dana", some "3"⟩] [] [])
        [⟨"e1", "dana", some "3"⟩] [] "therapist" "2026-02-01" "2026-02"
        (fun s => String.append "row-" s)) = [] :=
  c2_auto_sync_idempotent [⟨"p1", "dana", "", 100, none, none⟩] [⟨"e1", "dana", some "3"⟩]
    [] [] [] "therapist" "2026-02-01" "2026-02" (fun s => String.append "row-" s)
    (by decide) (by decide) (fun s => by simp)

/-- Payment row as consumed by the financial-analysis module. -/
structure AnalysisPayment where
  id : String
  patient_id : String
  amount : ℚ
  paid_at : Option String
  status : String
  notes : Option String
  deriving DecidableEq

/-- Patient row as consumed by the financial-analysis module. -/
structure AnalysisPatient where
  id : String
  name : String
  commission_enabled : Bool
  commission_type : String
  commission_value : Option ℚ
  deriving DecidableEq

/-- A month-level deduction. -/
structure GlobalDeduction where
  id : String
  name : String
  type : String
  value : ℚ
  enabled : Bool
  deriving DecidableEq

/-- Per-patient analysis result. -/
structure PatientAnalysis where
  patient : AnalysisPatient
  gross : ℚ
  vat : ℚ
  base : ℚ
  commission : ℚ
  netAfterCommission : ℚ
  payments : List AnalysisPayment
  refundCount : Nat
  refundAmount : ℚ
  deriving DecidableEq

/-- Result of `computeAnalysis`. -/
structure MonthAnalysis where
  totalGross : ℚ
  totalVAT : ℚ
  monthBaseAfterVAT : ℚ
  deductionResults : List (String × ℚ)
  globalDeductionsTotal : ℚ
  commissionsTotal : ℚ
  net : ℚ
  patientAnalyses : List PatientAnalysis
  paymentCount : Nat
  totalRefundCount : Nat
  totalRefundAmount : ℚ
  deriving DecidableEq

/-- Statuses tabulated as refunds. -/
def isRefundStatus (s : String) : Bool := s == "refunded" || s == "canceled"

/-- The main filter: keep everything when refunds are included, else only
`paid`. -/
def filteredPayments (payments : List AnalysisPayment) (includeRefunds : Bool) :
    List AnalysisPayment :=
  if includeRefunds then payments else payments.filter fun p => p.status == "paid"

/-- Per-patient tally of refunded/canceled entries over the unfiltered input
(`refundsByPatient`): count and summed absolute amount. -/
def refundTallyFor (payments : List AnalysisPayment) (pid : String) : Nat × ℚ :=
  payments.foldl
    (fun acc p =>
      if p.patient_id = pid ∧ isRefundStatus p.status then (acc.1 + 1, acc.2 + |p.amount|)
      else acc)
    (0, 0)

/-- Per-patient gross: amounts summed, refunded/canceled entries netted when
`netAfterRefunds` is set. -/
def patientGrossOf (netAfterRefunds : Bool) (patientPayments : List AnalysisPayment) : ℚ :=
  patientPayments.foldl
    (fun sum p =>
      if netAfterRefunds ∧ isRefundStatus p.status then sum - |p.amount| else sum + p.amount)
    0

/-- Commission of one patient against the VAT-free base. -/
def commissionOf (patient : AnalysisPatient) (base : ℚ) : ℚ :=
  if patient.commission_enabled then
    match patient.commission_value with
    | some v => if patient.commission_type = "percent" then base * (v / 100) else v
    | none => 0
  else 0

/-- The per-patient record pushed by the `computeAnalysis` loop. -/
def mkPatientAnalysis (payments : List AnalysisPayment) (r : ℚ) (netAfterRefunds : Bool)
    (patient : AnalysisPatient) (patientPayments : List AnalysisPayment) (pid : String) :
    PatientAnalysis :=
  let patientGross := patientGrossOf netAfterRefunds patientPayments
  let refunds := refundTallyFor payments pid
  let patientVAT := patientGross * r / (1 + r)
  let patientBase := patientGross - patientVAT
  let commission := commissionOf patient patientBase
  ⟨patient, patientGross, patientVAT, patientBase, commission, patientBase - commission,
    patientPayments, refunds.1, refunds.2⟩

/-- The `patientMap` lookup (`new Map (patients.map (p => [p.id, p]))`). -/
def patientMapGet (patients : List AnalysisPatient) (pid : String) : Option AnalysisPatient :=
  mapLookup (patients.map fun p => (p.id, p)) pid

/-- The `byPatient` loop: group keys in first-occurrence order (JavaScript
`Map` insertion order), skipping patients missing from the roster; the loop's
running accumulators are recovered below as sums over this list. -/
def processedAnalyses (payments : List AnalysisPayment) (patients : List AnalysisPatient)
    (r : ℚ) (netAfterRefunds : Bool) (filtered : List AnalysisPayment) :
    List PatientAnalysis :=
  (dedupKeep (filtered.map fun p => p.patient_id)).filterMap fun pid =>
    match patientMapGet patients pid with
    | some patient =>
      some (mkPatientAnalysis payments r netAfterRefunds patient
        (filtered.filter fun p => p.patient_id == pid) pid)
    | none => none

/-- Stable insertion step for the descending-gross sort. -/
def insertByGrossDesc (a : PatientAnalysis) : List PatientAnalysis → List PatientAnalysis
  | [] => [a]
  | b :: rest => if b.gross ≤ a.gross then a :: b :: rest else b :: insertByGrossDesc a rest

/-- Stable sort by descending `gross` (model of
`sort ((a, b) => b.gross - a.gross)`). -/
def sortByGrossDesc : List PatientAnalysis → List PatientAnalysis
  | [] => []
  | a :: rest => insertByGrossDesc a (sortByGrossDesc rest)

/-- Embedding of `computeAnalysis`. The loop accumulators (`totalGross`,
`commissionsTotal`, refund totals) are expressed as sums over the processed
list, which visits the same patients in the same order as the source loop. -/
def computeAnalysis (payments : List AnalysisPayment) (patients : List AnalysisPatient)
    (vatRate : ℚ) (deductions : List GlobalDeduction)
    (includeRefunds netAfterRefunds : Bool) : MonthAnalysis :=
  let r := vatRate / 100
  let filtered := filteredPayments payments includeRefunds
  let processed := processedAnalyses payments patients r netAfterRefunds filtered
  let totalGross := (processed.map fun a => a.gross).sum
  let commissionsTotal := (processed.map fun a => a.commission).sum
  let totalRefundCount := (processed.map fun a => a.refundCount).sum
  let totalRefundAmount := (processed.map fun a => a.refundAmount).sum
  let totalVAT := totalGross * r / (1 + r)
  let monthBaseAfterVAT := totalGross - totalVAT
  let deductionResults := (deductions.filter fun d => d.enabled).map fun d =>
    (d.name, if d.type = "percent" then monthBaseAfterVAT * (d.value / 100) else d.value)
  let globalDeductionsTotal := (deductionResults.map fun x => x.2).sum
  ⟨totalGross, totalVAT, monthBaseAfterVAT, deductionResults, globalDeductionsTotal,
    commissionsTotal, monthBaseAfterVAT - globalDeductionsTotal - commissionsTotal,
    sortByGrossDesc processed, filtered.length, totalRefundCount, totalRefundAmount⟩

/-- Insertion into the descending-gross sort is a permutation. -/
theorem insertByGrossDesc_perm (a : PatientAnalysis) (l : List PatientAnalysis) :
    (insertByGrossDesc a l).Perm (a :: l) := by
  induction l with
  | nil => simp [insertByGrossDesc]
  | cons b rest ih =>
    by_cases h : b.gross ≤ a.gross
    · simp [insertByGrossDesc, h]
    · simp only [insertByGrossDesc, if_neg h]
      exact (ih.cons b).trans (List.Perm.swap a b rest)

/-- The descending-gross sort is a permutation of its input. -/
theorem sortByGrossDesc_perm (l : List PatientAnalysis) :
    (sortByGrossDesc l).Perm l := by
  induction l with
  | nil => simp [sortByGrossDesc]
  | cons a rest ih =>
    exact (insertByGrossDesc_perm a (sortByGrossDesc rest)).trans (ih.cons a)

/-- Every member of the processed list is the analysis of some group key whose
patient exists. -/
theorem mem_processedAnalyses (payments : List AnalysisPayment)
    (patients : List AnalysisPatient) (r : ℚ) (netAfterRefunds : Bool)
    (filtered : List AnalysisPayment) (pa : PatientAnalysis)
    (h : pa ∈ processedAnalyses payments patients r netAfterRefunds filtered) :
    ∃ pid patient, patientMapGet patients pid = some patient ∧
      pa = mkPatientAnalysis payments r netAfterRefunds patient
        (filtered.filter fun p => p.patient_id == pid) pid := by
  obtain ⟨pid, hpid, hmatch⟩ := List.mem_filterMap.mp h
  cases hget : patientMapGet patients pid with
  | none =>
    rw [hget] at hmatch
    cases hmatch
  | some patient =>
    rw [hget] at hmatch
    injection hmatch with hmatch
    exact ⟨pid, patient, hget, hmatch.symm⟩

/-- When every element's vat is its gross scaled by the same factor, the vat
sum is the gross sum scaled by that factor. -/
theorem vat_sum_scaled (r : ℚ) :
    ∀ l : List PatientAnalysis, (∀ pa ∈ l, pa.vat = pa.gross * r / (1 + r)) →
      (l.map fun pa => pa.vat).sum = (l.map fun pa => pa.gross).sum * r / (1 + r) := by
  intro l
  induction l with
  | nil =>
    intro _
    simp
  | cons a rest ih =>
    intro hl
    rw [List.map_cons, List.map_cons, List.sum_cons, List.sum_cons,
      hl a (List.mem_cons_self _ _), ih fun pa hpa => hl pa (List.mem_cons_of_mem _ hpa)]
    ring

/-- C5: with exact rational arithmetic, every patient's vat is the
VAT-inclusive back-calculation `gross * r / (1 + r)` with
`base = gross - vat`; the month totalVAT is computed the same way from
totalGross, and equals the sum of the per-patient vats. -/
theorem c5_vat_back_calculation (payments : List AnalysisPayment)
    (patients : List AnalysisPatient) (vatRate : ℚ) (deductions : List GlobalDeduction)
    (includeRefunds netAfterRefunds : Bool) :
    (∀ pa ∈ (computeAnalysis payments patients vatRate deductions includeRefunds
        netAfterRefunds).patientAnalyses,
      pa.vat = pa.gross * (vatRate / 100) / (1 + vatRate / 100) ∧
      pa.base = pa.gross - pa.vat) ∧
    (computeAnalysis payments patients vatRate deductions includeRefunds
        netAfterRefunds).totalVAT
      = (computeAnalysis payments patients vatRate deductions includeRefunds
          netAfterRefunds).totalGross * (vatRate / 100) / (1 + vatRate / 100) ∧
    (computeAnalysis payments patients vatRate deductions includeRefunds
        netAfterRefunds).monthBaseAfterVAT
      = (computeAnalysis payments patients vatRate deductions includeRefunds
          netAfterRefunds).totalGross
        - (computeAnalysis payments patients vatRate deductions includeRefunds
            netAfterRefunds).totalVAT ∧
    (computeAnalysis payments patients vatRate deductions includeRefunds
        netAfterRefunds).totalVAT
      = (((computeAnalysis payments patients vatRate deductions includeRefunds
          netAfterRefunds).patientAnalyses).map fun pa => pa.vat).sum := by
  have hPA : (computeAnalysis payments patients vatRate deductions includeRefunds
      netAfterRefunds).patientAnalyses
      = sortByGrossDesc (processedAnalyses payments patients (vatRate / 100) netAfterRefunds
          (filteredPayments payments includeRefunds)) := rfl
  have hmemP : ∀ pa ∈ processedAnalyses payments patients (vatRate / 100) netAfterRefunds
      (filteredPayments payments includeRefunds),
      pa.vat = pa.gross * (vatRate / 100) / (1 + vatRate / 100) := by
    intro pa hpa
    obtain ⟨pid, patient, hget, rfl⟩ := mem_processedAnalyses _ _ _ _ _ _ hpa
    rfl
  refine ⟨?_, rfl, rfl, ?_⟩
  · intro pa hpa
    have hpa2 := (sortByGrossDesc_perm _).mem_iff.mp (hPA ▸ hpa)
    obtain ⟨pid, patient, hget, rfl⟩ := mem_processedAnalyses _ _ _ _ _ _ hpa2
    exact ⟨rfl, rfl⟩
  · rw [hPA, ((sortByGrossDesc_perm _).map fun pa => pa.vat).sum_eq,
      vat_sum_scaled (vatRate / 100) _ hmemP]
    rfl

/-- Witness for C5 at a concrete input: one paid payment of 234 at 17 percent
VAT gives vat 34 and base 200 on the single patient line. -/
theorem c5_vat_back_calculation_witness :
    ∃ pa ∈ (computeAnalysis [⟨"pay1", "px", 234, none, "paid", none⟩]
        [⟨"px", "xenia", false, "percent", none⟩] 17 [] false false).patientAnalyses,
      pa.vat = pa.gross * (17 / 100) / (1 + 17 / 100) ∧ pa.base = pa.gross - pa.vat ∧
      pa.vat = 34 := by
  have heval : (computeAnalysis [⟨"pay1", "px", 234, none, "paid", none⟩]
      [⟨"px", "xenia", false, "percent", none⟩] 17 [] false false).patientAnalyses
      = [⟨⟨"px", "xenia", false, "percent", none⟩, 234, 34, 200, 0, 200,
          [⟨"pay1", "px", 234, none, "paid", none⟩], 0, 0⟩] := by
    show sortByGrossDesc (processedAnalyses _ _ _ _ _) = _
    have hfil5 : filteredPayments [⟨"pay1", "px", 234, none, "paid", none⟩] false
        = [⟨"pay1", "px", 234, none, "paid", none⟩] := rfl
    rw [hfil5]
    have hkeys5 : dedupKeep ((([⟨"pay1", "px", 234, none, "paid", none⟩] :
        List AnalysisPayment)).map fun p => p.patient_id) = ["px"] := by
      simp [dedupKeep]
    unfold processedAnalyses
    rw [hkeys5]
    have htally5 : refundTallyFor [⟨"pay1", "px", 234, none, "paid", none⟩] "px" = (0, 0) := by
      rfl
    norm_num [patientMapGet, mapLookup, mkPatientAnalysis, patientGrossOf, htally5,
      isRefundStatus, sortByGrossDesc, insertByGrossDesc, commissionOf]
  have hmem : (⟨⟨"px", "xenia", false, "percent", none⟩, 234, 34, 200, 0, 200,
      [⟨"pay1", "px", 234, none, "paid", none⟩], 0, 0⟩ : PatientAnalysis)
      ∈ (computeAnalysis [⟨"pay1", "px", 234, none, "paid", none⟩]
        [⟨"px", "xenia", false, "percent", none⟩] 17 [] false false).patientAnalyses := by
    rw [heval]
    exact List.mem_singleton.mpr rfl
  refine ⟨_, hmem, ?_, ?_, ?_⟩
  · exact ((c5_vat_back_calculation [⟨"pay1", "px", 234, none, "paid", none⟩]
      [⟨"px", "xenia", false, "percent", none⟩] 17 [] false false).1 _ hmem).1
  · exact ((c5_vat_back_calculation [⟨"pay1", "px", 234, none, "paid", none⟩]
      [⟨"px", "xenia", false, "percent", none⟩] 17 [] false false).1 _ hmem).2
  · rfl

/-- A `patientMap` hit carries the looked-up id. -/
theorem patientMapGet_id (patients : List AnalysisPatient) (pid : String)
    (q : AnalysisPatient) (h : patientMapGet patients pid = some q) : q.id = pid := by
  have hmem := mapLookup_mem _ _ _ h
  obtain ⟨p, hp, hpair⟩ := List.mem_map.mp hmem
  injection hpair with h1 h2
  rw [← h2, h1]

/-- The refund tally is the count and absolute-amount sum of the
refunded/canceled payments of that patient. -/
theorem refundTallyFor_spec (payments : List AnalysisPayment) (pid : String) :
    refundTallyFor payments pid
      = (payments.countP fun p => p.patient_id == pid && isRefundStatus p.status,
         ((payments.filter fun p => p.patient_id == pid && isRefundStatus p.status).map
           fun p => |p.amount|).sum) := by
  have haux : ∀ (l : List AnalysisPayment) (acc : Nat × ℚ),
      l.foldl
        (fun acc p =>
          if p.patient_id = pid ∧ isRefundStatus p.status then (acc.1 + 1, acc.2 + |p.amount|)
          else acc) acc
      = (acc.1 + l.countP fun p => p.patient_id == pid && isRefundStatus p.status,
         acc.2 + ((l.filter fun p => p.patient_id == pid && isRefundStatus p.status).map
           fun p => |p.amount|).sum) := by
    intro l
    induction l with
    | nil =>
      intro acc
      simp
    | cons a rest ih =>
      intro acc
      rw [List.foldl_cons]
      by_cases hc : a.patient_id = pid ∧ isRefundStatus a.status
      · have hb : (a.patient_id == pid && isRefundStatus a.status) = true := by
          simp [beq_iff_eq.mpr hc.1, hc.2]
        rw [if_pos hc, ih]
        simp [List.countP_cons, List.filter_cons, hb]
        constructor
        · omega
        · ring
      · have hb : (a.patient_id == pid && isRefundStatus a.status) = false := by
          rcases not_and_or.mp hc with h1 | h1
          · simp [beq_eq_false_iff_ne.mpr h1]
          · simp [Bool.eq_false_iff.mpr h1]
        rw [if_neg hc, ih]
        simp [List.countP_cons, List.filter_cons, hb]
  unfold refundTallyFor
  rw [haux]
  simp

/-- C4 (counterexample): with the refund filter off, a patient whose only
payment is refunded contributes nothing to the month refund totals, although
the input holds one refunded payment. -/
theorem c4_counterexample :
    (computeAnalysis [⟨"pay1", "px", 100, none, "refunded", none⟩]
      [⟨"px", "xenia", false, "percent", none⟩] 17 [] false false).totalRefundCount = 0 ∧
    (([⟨"pay1", "px", 100, none, "refunded", none⟩] : List AnalysisPayment).countP
      fun p => isRefundStatus p.status) = 1 := by
  constructor
  · show ((processedAnalyses _ _ _ _ _).map fun a => a.refundCount).sum = 0
    have hfil : filteredPayments [⟨"pay1", "px", 100, none, "refunded", none⟩] false = [] := rfl
    unfold processedAnalyses
    rw [hfil]
    simp [dedupKeep]
  · rfl

/-- C4 (amended): the per-patient refund counters tally refunded/canceled
entries from the unfiltered input, and the month refund totals are the sums of
those counters over the patients present in the result (patients with at least
one filtered payment and found in the roster) — not over all input payments. -/
theorem c4_refund_tallies (payments : List AnalysisPayment)
    (patients : List AnalysisPatient) (vatRate : ℚ) (deductions : List GlobalDeduction)
    (includeRefunds netAfterRefunds : Bool) :
    (∀ pa ∈ (computeAnalysis payments patients vatRate deductions includeRefunds
        netAfterRefunds).patientAnalyses,
      pa.refundCount
          = payments.countP (fun p => p.patient_id == pa.patient.id && isRefundStatus p.status) ∧
      pa.refundAmount
          = ((payments.filter fun p => p.patient_id == pa.patient.id && isRefundStatus p.status).map
              fun p => |p.amount|).sum) ∧
    (computeAnalysis payments patients vatRate deductions includeRefunds
        netAfterRefunds).totalRefundCount
      = (((computeAnalysis payments patients vatRate deductions includeRefunds
          netAfterRefunds).patientAnalyses).map fun pa => pa.refundCount).sum ∧
    (computeAnalysis payments patients vatRate deductions includeRefunds
        netAfterRefunds).totalRefundAmount
      = (((computeAnalysis payments patients vatRate deductions includeRefunds
          netAfterRefunds).patientAnalyses).map fun pa => pa.refundAmount).sum := by
  have hPA : (computeAnalysis payments patients vatRate deductions includeRefunds
      netAfterRefunds).patientAnalyses
      = sortByGrossDesc (processedAnalyses payments patients (vatRate / 100) netAfterRefunds
          (filteredPayments payments includeRefunds)) := rfl
  refine ⟨?_, ?_, ?_⟩
  · intro pa hpa
    have hpa2 := (sortByGrossDesc_perm _).mem_iff.mp (hPA ▸ hpa)
    obtain ⟨pid, patient, hget, rfl⟩ := mem_processedAnalyses _ _ _ _ _ _ hpa2
    have hid : patient.id = pid := patientMapGet_id _ _ _ hget
    constructor
    · show (refundTallyFor payments pid).1 = _
      rw [refundTallyFor_spec]
      show _ = payments.countP fun p => p.patient_id == patient.id && isRefundStatus p.status
      rw [hid]
    · show (refundTallyFor payments pid).2 = _
      rw [refundTallyFor_spec]
      show _ = ((payments.filter fun p =>
        p.patient_id == patient.id && isRefundStatus p.status).map fun p => |p.amount|).sum
      rw [hid]
  · rw [hPA, ((sortByGrossDesc_perm _).map fun pa => pa.refundCount).sum_eq]
    rfl
  · rw [hPA, ((sortByGrossDesc_perm _).map fun pa => pa.refundAmount).sum_eq]
    rfl

/-- Witness for the amended C4: a patient with one paid and one refunded
payment (refund filter off) gets refund counters 1 and 100 on their line. -/
theorem c4_refund_tallies_witness :
    ∃ pa ∈ (computeAnalysis
        [⟨"pay1", "px", 300, none, "paid", none⟩, ⟨"pay2", "px", 100, none, "refunded", none⟩]
        [⟨"px", "xenia", false, "percent", none⟩] 0 [] false false).patientAnalyses,
      pa.refundCount = (([⟨"pay1", "px", 300, none, "paid", none⟩,
          ⟨"pay2", "px", 100, none, "refunded", none⟩] : List AnalysisPayment).countP
        fun p => p.patient_id == pa.patient.id && isRefundStatus p.status) ∧
      pa.refundCount = 1 ∧ pa.refundAmount = 100 := by
  have heval : (computeAnalysis
      [⟨"pay1", "px", 300, none, "paid", none⟩, ⟨"pay2", "px", 100, none, "refunded", none⟩]
      [⟨"px", "xenia", false, "percent", none⟩] 0 [] false false).patientAnalyses
      = [⟨⟨"px", "xenia", false, "percent", none⟩, 300, 0, 300, 0, 300,
          [⟨"pay1", "px", 300, none, "paid", none⟩], 1, 100⟩] := by
    show sortByGrossDesc (processedAnalyses _ _ _ _ _) = _
    have hfil : filteredPayments
        [⟨"pay1", "px", 300, none, "paid", none⟩, ⟨"pay2", "px", 100, none, "refunded", none⟩]
        false = [⟨"pay1", "px", 300, none, "paid", none⟩] := rfl
    rw [hfil]
    have hkeys : dedupKeep ((([⟨"pay1", "px", 300, none, "paid", none⟩] :
        List AnalysisPayment)).map fun p => p.patient_id) = ["px"] := by
      simp [dedupKeep]
    unfold processedAnalyses
    rw [hkeys]
    have htally : refundTallyFor
        [⟨"pay1", "px", 300, none, "paid", none⟩, ⟨"pay2", "px", 100, none, "refunded", none⟩]
        "px" = (1, 100) := by
      rw [refundTallyFor_spec, Prod.mk.injEq]
      refine ⟨rfl, ?_⟩
      have h2 : List.filter (fun p => p.patient_id == "px" && isRefundStatus p.status)
          ([⟨"pay1", "px", 300, none, "paid", none⟩,
            ⟨"pay2", "px", 100, none, "refunded", none⟩] : List AnalysisPayment) =
          [⟨"pay2", "px", 100, none, "refunded", none⟩] := rfl
      rw [h2]
      norm_num
    norm_num [patientMapGet, mapLookup, mkPatientAnalysis, patientGrossOf, htally,
      isRefundStatus, sortByGrossDesc, insertByGrossDesc, commissionOf]
  have hmem : (⟨⟨"px", "xenia", false, "percent", none⟩, 300, 0, 300, 0, 300,
      [⟨"pay1", "px", 300, none, "paid", none⟩], 1, 100⟩ : PatientAnalysis)
      ∈ (computeAnalysis
        [⟨"pay1", "px", 300, none, "paid", none⟩, ⟨"pay2", "px", 100, none, "refunded", none⟩]
        [⟨"px", "xenia", false, "percent", none⟩] 0 [] false false).patientAnalyses := by
    rw [heval]
    exact List.mem_singleton.mpr rfl
  refine ⟨_, hmem, ?_, rfl, rfl⟩
  exact ((c4_refund_tallies
    [⟨"pay1", "px", 300, none, "paid", none⟩, ⟨"pay2", "px", 100, none, "refunded", none⟩]
    [⟨"px", "xenia", false, "percent", none⟩] 0 [] false false).1 _ hmem).1


/-- Fold form of the `mapLookup` hit test: the fold result holds a value
exactly when the key occurs or the accumulator already held one. -/
theorem mapLookup_foldl_isSome {α β : Type} [DecidableEq α] (k : α) :
    ∀ (m : List (α × β)) (acc : Option β),
      ((m.foldl (fun acc kv => if kv.1 = k then some kv.2 else acc) acc).isSome = true
        ↔ k ∈ m.map Prod.fst ∨ acc.isSome = true) := by
  intro m
  induction m with
  | nil =>
    intro acc
    simp
  | cons kv rest ih =>
    intro acc
    rw [List.foldl_cons, ih]
    by_cases h : kv.1 = k
    · simp [h]
    · have h' : ¬ k = kv.1 := fun he => h he.symm
      simp [h, h']

/-- `patientMapGet` hits exactly the ids present in the roster. -/
theorem patientMapGet_isSome (patients : List AnalysisPatient) (pid : String) :
    (patientMapGet patients pid).isSome
      = (patients.map fun q => q.id).contains pid := by
  rw [Bool.eq_iff_iff]
  rw [show patientMapGet patients pid
      = (patients.map fun p => (p.id, p)).foldl
          (fun acc kv => if kv.1 = pid then some kv.2 else acc) none from rfl]
  rw [mapLookup_foldl_isSome]
  rw [List.map_map]
  constructor
  · intro h
    rcases h with h | h
    · exact List.elem_iff.mpr (by simpa using h)
    · simp at h
  · intro h
    exact Or.inl (by simpa using List.elem_iff.mp h)

/-- `dedupKeep` commutes with `filter`. -/
theorem dedupKeep_filter (q : String → Bool) :
    ∀ l : List String, dedupKeep (l.filter q) = (dedupKeep l).filter q := by
  have key : ∀ n : Nat, ∀ l : List String, l.length ≤ n →
      dedupKeep (l.filter q) = (dedupKeep l).filter q := by
    intro n
    induction n with
    | zero =>
      intro l hn
      rw [List.length_eq_zero.mp (Nat.le_zero.mp hn)]
      simp [dedupKeep]
    | succ n ih =>
      intro l hn
      cases l with
      | nil => simp [dedupKeep]
      | cons a rest =>
        have hlen : (rest.filter fun b => b != a).length ≤ n :=
          le_trans (List.length_filter_le _ _)
            (Nat.succ_le_succ_iff.mp (by simpa using hn))
        by_cases hq : q a = true
        · rw [List.filter_cons, if_pos hq, dedupKeep, dedupKeep,
            List.filter_cons, if_pos hq]
          congr 1
          have hcomm : (rest.filter q).filter (fun b => b != a)
              = (rest.filter fun b => b != a).filter q := by
            rw [List.filter_filter, List.filter_filter]
            exact List.filter_congr fun x _ => Bool.and_comm _ _
          rw [hcomm, ih _ hlen]
        · have hq' : q a = false := by revert hq; cases q a <;> simp
          rw [List.filter_cons, if_neg (by simp [hq']), dedupKeep,
            List.filter_cons, if_neg (by simp [hq'])]
          have hsub : rest.filter q = (rest.filter fun b => b != a).filter q := by
            rw [List.filter_filter]
            refine List.filter_congr fun x _ => ?_
            by_cases hx : x = a
            · simp [hx, hq']
            · simp [bne_iff_ne, hx]
          rw [hsub, ih _ hlen]
  exact fun l => key l.length l le_rfl

/-- A `filterMap` is unchanged by pre-filtering when dropped entries map to
`none` and kept entries map equally. -/
theorem filterMap_filter_congr {α β : Type} (f g : α → Option β) (q : α → Bool)
    (h1 : ∀ a, q a = false → f a = none) (h2 : ∀ a, q a = true → f a = g a) :
    ∀ l : List α, l.filterMap f = (l.filter q).filterMap g := by
  intro l
  induction l with
  | nil => rfl
  | cons a rest ih =>
    by_cases hq : q a = true
    · rw [List.filter_cons, if_pos hq, List.filterMap_cons, List.filterMap_cons,
        h2 a hq, ih]
    · have hq' : q a = false := by revert hq; cases q a <;> simp
      rw [List.filter_cons, if_neg (by simp [hq']), List.filterMap_cons,
        h1 a hq', ih]

/-- Mapping group keys commutes with dropping orphans. -/
theorem map_pid_filter (filtered : List AnalysisPayment)
    (patients : List AnalysisPatient) :
    ((filtered.filter fun p => (patientMapGet patients p.patient_id).isSome).map
        fun p => p.patient_id)
      = (filtered.map fun p => p.patient_id).filter
          fun pid => (patientMapGet patients pid).isSome := by
  induction filtered with
  | nil => rfl
  | cons a rest ih =>
    by_cases hq : (patientMapGet patients a.patient_id).isSome = true
    · rw [List.filter_cons, if_pos hq, List.map_cons, List.map_cons,
        List.filter_cons, if_pos hq, ih]
    · rw [List.filter_cons, if_neg (by simpa using hq), List.map_cons,
        List.filter_cons, if_neg (by simpa using hq), ih]

/-- A group of a rostered patient keeps every one of its payments when
orphans are dropped. -/
theorem filter_keep_pid (filtered : List AnalysisPayment)
    (patients : List AnalysisPatient) (pid : String)
    (h : (patientMapGet patients pid).isSome = true) :
    ((filtered.filter fun p => (patientMapGet patients p.patient_id).isSome).filter
        fun p => p.patient_id == pid)
      = filtered.filter fun p => p.patient_id == pid := by
  rw [List.filter_filter]
  refine List.filter_congr fun a _ => ?_
  by_cases hr : a.patient_id = pid
  · rw [hr]; simp [h]
  · simp [beq_eq_false_iff_ne.mpr hr]

/-- The refund tally of a rostered patient ignores dropped orphan payments. -/
theorem refundTallyFor_drop (payments : List AnalysisPayment)
    (patients : List AnalysisPatient) (pid : String)
    (h : (patientMapGet patients pid).isSome = true) :
    refundTallyFor (payments.filter fun p => (patientMapGet patients p.patient_id).isSome) pid
      = refundTallyFor payments pid := by
  rw [refundTallyFor_spec, refundTallyFor_spec]
  have hfil : ((payments.filter fun p => (patientMapGet patients p.patient_id).isSome).filter
        fun p => p.patient_id == pid && isRefundStatus p.status)
      = payments.filter fun p => p.patient_id == pid && isRefundStatus p.status := by
    rw [List.filter_filter]
    refine List.filter_congr fun a _ => ?_
    by_cases hr : a.patient_id = pid
    · rw [hr]; simp [h]
    · simp [beq_eq_false_iff_ne.mpr hr]
  rw [List.countP_eq_length_filter, List.countP_eq_length_filter, hfil]

/-- The main payment filter commutes with dropping orphans. -/
theorem filteredPayments_filter (payments : List AnalysisPayment)
    (includeRefunds : Bool) (keep : AnalysisPayment → Bool) :
    filteredPayments (payments.filter keep) includeRefunds
      = (filteredPayments payments includeRefunds).filter keep := by
  cases includeRefunds with
  | true => rfl
  | false =>
    show (payments.filter keep).filter (fun p => p.status == "paid")
      = (payments.filter fun p => p.status == "paid").filter keep
    rw [List.filter_filter, List.filter_filter]
    exact List.filter_congr fun a _ => Bool.and_comm _ _

/-- Orphan filtered payments never reach the processed list. -/
theorem processedAnalyses_drop_orphans (payments : List AnalysisPayment)
    (patients : List AnalysisPatient) (r : ℚ) (netAfterRefunds includeRefunds : Bool) :
    processedAnalyses payments patients r netAfterRefunds
        (filteredPayments payments includeRefunds)
      = processedAnalyses
          (payments.filter fun p => (patientMapGet patients p.patient_id).isSome)
          patients r netAfterRefunds
          (filteredPayments
            (payments.filter fun p => (patientMapGet patients p.patient_id).isSome)
            includeRefunds) := by
  rw [filteredPayments_filter]
  unfold processedAnalyses
  rw [map_pid_filter (filteredPayments payments includeRefunds) patients]
  rw [dedupKeep_filter]
  refine filterMap_filter_congr _ _ _ ?_ ?_ _
  · intro pid hnone
    have hn : patientMapGet patients pid = none := by
      cases hc : patientMapGet patients pid with
      | none => rfl
      | some v => rw [hc] at hnone; simp at hnone
    simp only [hn]
  · intro pid hsome
    obtain ⟨patient, hpat⟩ := Option.isSome_iff_exists.mp hsome
    simp only [hpat]
    rw [filter_keep_pid _ _ _ hsome]
    simp only [mkPatientAnalysis]
    rw [refundTallyFor_drop _ _ _ hsome]

/-- C10: a filtered payment whose `patient_id` occurs in no roster entry
contributes to none of the monetary outputs — per-patient lines, gross, VAT,
base, deductions, commissions, net — which all agree with the run on the
orphan-free input; yet every filtered payment, orphan or not, is counted in
`paymentCount`. -/
theorem c10_orphan_payments (payments : List AnalysisPayment)
    (patients : List AnalysisPatient) (vatRate : ℚ) (deductions : List GlobalDeduction)
    (includeRefunds netAfterRefunds : Bool) :
    (computeAnalysis payments patients vatRate deductions includeRefunds
        netAfterRefunds).patientAnalyses
      = (computeAnalysis
          (payments.filter fun p => (patients.map fun q => q.id).contains p.patient_id)
          patients vatRate deductions includeRefunds netAfterRefunds).patientAnalyses ∧
    (computeAnalysis payments patients vatRate deductions includeRefunds
        netAfterRefunds).totalGross
      = (computeAnalysis
          (payments.filter fun p => (patients.map fun q => q.id).contains p.patient_id)
          patients vatRate deductions includeRefunds netAfterRefunds).totalGross ∧
    (computeAnalysis payments patients vatRate deductions includeRefunds
        netAfterRefunds).totalVAT
      = (computeAnalysis
          (payments.filter fun p => (patients.map fun q => q.id).contains p.patient_id)
          patients vatRate deductions includeRefunds netAfterRefunds).totalVAT ∧
    (computeAnalysis payments patients vatRate deductions includeRefunds
        netAfterRefunds).monthBaseAfterVAT
      = (computeAnalysis
          (payments.filter fun p => (patients.map fun q => q.id).contains p.patient_id)
          patients vatRate deductions includeRefunds netAfterRefunds).monthBaseAfterVAT ∧
    (computeAnalysis payments patients vatRate deductions includeRefunds
        netAfterRefunds).deductionResults
      = (computeAnalysis
          (payments.filter fun p => (patients.map fun q => q.id).contains p.patient_id)
          patients vatRate deductions includeRefunds netAfterRefunds).deductionResults ∧
    (computeAnalysis payments patients vatRate deductions includeRefunds
        netAfterRefunds).globalDeductionsTotal
      = (computeAnalysis
          (payments.filter fun p => (patients.map fun q => q.id).contains p.patient_id)
          patients vatRate deductions includeRefunds netAfterRefunds).globalDeductionsTotal ∧
    (computeAnalysis payments patients vatRate deductions includeRefunds
        netAfterRefunds).commissionsTotal
      = (computeAnalysis
          (payments.filter fun p => (patients.map fun q => q.id).contains p.patient_id)
          patients vatRate deductions includeRefunds netAfterRefunds).commissionsTotal ∧
    (computeAnalysis payments patients vatRate deductions includeRefunds
        netAfterRefunds).net
      = (computeAnalysis
          (payments.filter fun p => (patients.map fun q => q.id).contains p.patient_id)
          patients vatRate deductions includeRefunds netAfterRefunds).net ∧
    (computeAnalysis payments patients vatRate deductions includeRefunds
        netAfterRefunds).paymentCount
      = (computeAnalysis
          (payments.filter fun p => (patients.map fun q => q.id).contains p.patient_id)
          patients vatRate deductions includeRefunds netAfterRefunds).paymentCount
        + (filteredPayments payments includeRefunds).countP
            fun p => !(patients.map fun q => q.id).contains p.patient_id := by
  have hfun : (fun p : AnalysisPayment =>
        (patients.map fun q => q.id).contains p.patient_id)
      = fun p => (patientMapGet patients p.patient_id).isSome :=
    funext fun p => (patientMapGet_isSome patients p.patient_id).symm
  rw [hfun]
  have hproc := processedAnalyses_drop_orphans payments patients (vatRate / 100)
    netAfterRefunds includeRefunds
  refine ⟨?_, ?_, ?_, ?_, ?_, ?_, ?_, ?_, ?_⟩
  · exact congrArg sortByGrossDesc hproc
  · exact congrArg (fun l => (l.map fun a => a.gross).sum) hproc
  · exact congrArg
      (fun l => (l.map fun a => a.gross).sum * (vatRate / 100) / (1 + vatRate / 100)) hproc
  · exact congrArg
      (fun l => (l.map fun a => a.gross).sum
        - (l.map fun a => a.gross).sum * (vatRate / 100) / (1 + vatRate / 100)) hproc
  · exact congrArg
      (fun l => (deductions.filter fun d => d.enabled).map fun d =>
        (d.name,
          if d.type = "percent" then
            ((l.map fun a => a.gross).sum
              - (l.map fun a => a.gross).sum * (vatRate / 100) / (1 + vatRate / 100))
              * (d.value / 100)
          else d.value)) hproc
  · exact congrArg
      (fun l => ((((deductions.filter fun d => d.enabled).map fun d =>
        (d.name,
          if d.type = "percent" then
            ((l.map fun a => a.gross).sum
              - (l.map fun a => a.gross).sum * (vatRate / 100) / (1 + vatRate / 100))
              * (d.value / 100)
          else d.value)).map fun x => x.2).sum)) hproc
  · exact congrArg (fun l => (l.map fun a => a.commission).sum) hproc
  · exact congrArg
      (fun l => ((l.map fun a => a.gross).sum
          - (l.map fun a => a.gross).sum * (vatRate / 100) / (1 + vatRate / 100))
        - ((((deductions.filter fun d => d.enabled).map fun d =>
            (d.name,
              if d.type = "percent" then
                ((l.map fun a => a.gross).sum
                  - (l.map fun a => a.gross).sum * (vatRate / 100) / (1 + vatRate / 100))
                  * (d.value / 100)
              else d.value)).map fun x => x.2).sum)
        - (l.map fun a => a.commission).sum) hproc
  · show (filteredPayments payments includeRefunds).length
      = (filteredPayments
          (payments.filter fun p => (patientMapGet patients p.patient_id).isSome)
          includeRefunds).length
        + (filteredPayments payments includeRefunds).countP
            fun p => !(patients.map fun q => q.id).contains p.patient_id
    rw [filteredPayments_filter, ← List.countP_eq_length_filter]
    have hneg : ((filteredPayments payments includeRefunds).countP
          fun p => !(patients.map fun q => q.id).contains p.patient_id)
        = (filteredPayments payments includeRefunds).countP
            fun p => ¬ ((fun p : AnalysisPayment =>
              (patientMapGet patients p.patient_id).isSome) p = true) := by
      refine List.countP_congr fun x _ => ?_
      simp only [patientMapGet_isSome]
      cases hc : (patients.map fun q => q.id).contains x.patient_id <;> simp [hc]
    rw [hneg]
    exact List.length_eq_countP_add_countP _ _

/-- `Char.ofNat` on a small scalar value round-trips. -/
theorem toNat_ofNat_small {n : Nat} (h : n < 0xD800) : (Char.ofNat n).toNat = n := by
  rw [Char.ofNat, dif_pos (Or.inl h)]
  rfl

/-- Lowercasing does not change whitespace membership. -/
theorem isJsWs_jsToLower (c : Char) : isJsWs (jsToLower c) = isJsWs c := by
  unfold jsToLower
  by_cases h : 65 ≤ c.toNat ∧ c.toNat ≤ 90
  · rw [if_pos h]
    have h1 : (Char.ofNat (c.toNat + 32)).toNat = c.toNat + 32 :=
      toNat_ofNat_small (by omega)
    unfold isJsWs
    rw [h1, decide_eq_decide]
    omega
  · rw [if_neg h]

/-- Every line terminator is whitespace. -/
theorem isJsWs_of_isLineTerm (c : Char) (h : isLineTerm c = true) : isJsWs c = true := by
  unfold isLineTerm at h
  unfold isJsWs
  rw [decide_eq_true_eq] at h
  rw [decide_eq_true_eq]
  omega

/-- Lowercasing fixes niqqud marks. -/
theorem jsToLower_niqqud (c : Char) (h : isNiqqud c = true) : jsToLower c = c := by
  unfold isNiqqud at h
  rw [decide_eq_true_eq] at h
  unfold jsToLower
  rw [if_neg (by omega)]

/-- The whitespace-collapse machine commutes with lowercasing. -/
theorem collapseWsAux_map_lower (l : List Char) :
    ∀ prev : Bool, collapseWsAux prev (l.map jsToLower)
      = (collapseWsAux prev l).map jsToLower := by
  induction l with
  | nil => intro prev; rfl
  | cons c rest ih =>
    intro prev
    rw [List.map_cons]
    have hsp : jsToLower ' ' = ' ' := by decide
    by_cases h : isJsWs c = true
    · have h' : isJsWs (jsToLower c) = true := by rw [isJsWs_jsToLower]; exact h
      cases prev with
      | true => simp [collapseWsAux, h, h', ih]
      | false => simp [collapseWsAux, h, h', ih, hsp]
    · have hf : isJsWs c = false := by revert h; cases isJsWs c <;> simp
      have h' : isJsWs (jsToLower c) = false := by rw [isJsWs_jsToLower]; exact hf
      simp [collapseWsAux, hf, h', ih]

/-- `trim` commutes with lowercasing. -/
theorem jsTrim_map_lower (l : List Char) :
    jsTrim (l.map jsToLower) = (jsTrim l).map jsToLower := by
  have hfun : (isJsWs ∘ jsToLower) = isJsWs := funext fun c => isJsWs_jsToLower c
  unfold jsTrim trimLeft trimRight
  rw [List.dropWhile_map, hfun, ← List.map_reverse, List.dropWhile_map, hfun,
    ← List.map_reverse]

/-- Inserting an extra whitespace character at the head of a whitespace run
does not change the collapse. -/
theorem collapseWsAux_dup (a b : Char) (ha : isJsWs a = true) (hb : isJsWs b = true)
    (v : List Char) :
    ∀ (u : List Char) (prev : Bool),
      collapseWsAux prev (u ++ a :: b :: v) = collapseWsAux prev (u ++ b :: v) := by
  intro u
  induction u with
  | nil =>
    intro prev
    cases prev with
    | true => simp [collapseWsAux, ha, hb]
    | false => simp [collapseWsAux, ha, hb]
  | cons c rest ih =>
    intro prev
    by_cases h : isJsWs c = true
    · cases prev with
      | true => simp [collapseWsAux, h, ih]
      | false => simp [collapseWsAux, h, ih]
    · have hf : isJsWs c = false := by revert h; cases isJsWs c <;> simp
      simp [collapseWsAux, hf, ih]

/-- Collapse of a list holding two adjacent non-whitespace characters splits
around them, with or without the second character. -/
theorem collapseWsAux_ins (d e : Char) (hd : isJsWs d = false) (he : isJsWs e = false)
    (R : List Char) :
    ∀ (W : List Char) (prev : Bool), ∃ CW : List Char,
      collapseWsAux prev (W ++ d :: e :: R) = CW ++ d :: e :: collapseWsAux false R ∧
      collapseWsAux prev (W ++ d :: R) = CW ++ d :: collapseWsAux false R := by
  intro W
  induction W with
  | nil =>
    intro prev
    refine ⟨[], ?_, ?_⟩
    · simp [collapseWsAux, hd, he]
    · simp [collapseWsAux, hd]
  | cons c rest ih =>
    intro prev
    by_cases h : isJsWs c = true
    · cases prev with
      | true =>
        obtain ⟨CW, h1, h2⟩ := ih true
        exact ⟨CW, by simp [collapseWsAux, h, h1], by simp [collapseWsAux, h, h2]⟩
      | false =>
        obtain ⟨CW, h1, h2⟩ := ih true
        exact ⟨' ' :: CW, by simp [collapseWsAux, h, h1], by simp [collapseWsAux, h, h2]⟩
    · have hf : isJsWs c = false := by revert h; cases isJsWs c <;> simp
      obtain ⟨CW, h1, h2⟩ := ih false
      exact ⟨c :: CW, by simp [collapseWsAux, hf, h1], by simp [collapseWsAux, hf, h2]⟩

/-- The duplicate-collapse machine absorbs an adjacent duplicate of any
matchable (non-line-terminator) character. -/
theorem collapseDupsAux_dup (c : Char) (hc : isLineTerm c = false) (b : List Char) :
    ∀ (a : List Char) (prev : Option Char),
      collapseDupsAux prev (a ++ c :: c :: b) = collapseDupsAux prev (a ++ c :: b) := by
  intro a
  induction a with
  | nil =>
    intro prev
    by_cases h : prev = some c
    · simp [collapseDupsAux, h, hc]
    · simp [collapseDupsAux, h, hc]
  | cons x rest ih =>
    intro prev
    by_cases h : prev = some x ∧ isLineTerm x = false
    · simp [collapseDupsAux, h, ih]
    · simp only [List.cons_append, collapseDupsAux, if_neg h, List.append_eq, ih]

/-- Shape of `trim` around an extra whitespace character heading a whitespace
run: either the pair sits in a trimmed region (results equal) or it survives
inside a common frame. -/
theorem jsTrim_wspair (u v : List Char) (a b : Char) (ha : isJsWs a = true)
    (hb : isJsWs b = true) :
    jsTrim (u ++ a :: b :: v) = jsTrim (u ++ b :: v) ∨
    ∃ W R, jsTrim (u ++ a :: b :: v) = W ++ a :: b :: R
      ∧ jsTrim (u ++ b :: v) = W ++ b :: R := by
  unfold jsTrim trimLeft trimRight
  by_cases hu : (u.dropWhile isJsWs).isEmpty = true
  · left
    simp [List.dropWhile_append, hu, ha, hb]
  · have hu' : (u.dropWhile isJsWs).isEmpty = false := by
      revert hu; cases (u.dropWhile isJsWs).isEmpty <;> simp
    by_cases hv : (v.reverse.dropWhile isJsWs).isEmpty = true
    · left
      simp [List.dropWhile_append, hu', hv, ha, hb]
    · have hv' : (v.reverse.dropWhile isJsWs).isEmpty = false := by
        revert hv; cases (v.reverse.dropWhile isJsWs).isEmpty <;> simp
      right
      refine ⟨u.dropWhile isJsWs, (v.reverse.dropWhile isJsWs).reverse, ?_, ?_⟩
      · simp [List.dropWhile_append, hu', hv']
      · simp [List.dropWhile_append, hu', hv']

/-- Shape of `trim` around two adjacent non-whitespace characters: they always
survive inside a common frame, with or without the second one. -/
theorem jsTrim_shape (u v : List Char) (d e : Char) (hd : isJsWs d = false)
    (he : isJsWs e = false) :
    ∃ W R, jsTrim (u ++ d :: e :: v) = W ++ d :: e :: R
      ∧ jsTrim (u ++ d :: v) = W ++ d :: R := by
  unfold jsTrim trimLeft trimRight
  by_cases hu : (u.dropWhile isJsWs).isEmpty = true
  · by_cases hv : (v.reverse.dropWhile isJsWs).isEmpty = true
    · exact ⟨[], [], by simp [List.dropWhile_append, hu, hv, hd, he],
        by simp [List.dropWhile_append, hu, hv, hd, he]⟩
    · have hv' : (v.reverse.dropWhile isJsWs).isEmpty = false := by
        revert hv; cases (v.reverse.dropWhile isJsWs).isEmpty <;> simp
      exact ⟨[], (v.reverse.dropWhile isJsWs).reverse,
        by simp [List.dropWhile_append, hu, hv', hd, he],
        by simp [List.dropWhile_append, hu, hv', hd, he]⟩
  · have hu' : (u.dropWhile isJsWs).isEmpty = false := by
      revert hu; cases (u.dropWhile isJsWs).isEmpty <;> simp
    by_cases hv : (v.reverse.dropWhile isJsWs).isEmpty = true
    · exact ⟨u.dropWhile isJsWs, [],
        by simp [List.dropWhile_append, hu', hv, hd, he],
        by simp [List.dropWhile_append, hu', hv, hd, he]⟩
    · have hv' : (v.reverse.dropWhile isJsWs).isEmpty = false := by
        revert hv; cases (v.reverse.dropWhile isJsWs).isEmpty <;> simp
      exact ⟨u.dropWhile isJsWs, (v.reverse.dropWhile isJsWs).reverse,
        by simp [List.dropWhile_append, hu', hv', hd, he],
        by simp [List.dropWhile_append, hu', hv', hd, he]⟩

/-- A leading whitespace character is removed by `trim`. -/
theorem jsTrim_cons_ws (a : Char) (ha : isJsWs a = true) (l : List Char) :
    jsTrim (a :: l) = jsTrim l := by
  unfold jsTrim trimLeft
  rw [List.dropWhile_cons_of_pos ha]

/-- A trailing whitespace character is removed by `trim`. -/
theorem jsTrim_concat_ws (a : Char) (ha : isJsWs a = true) (l : List Char) :
    jsTrim (l ++ [a]) = jsTrim l := by
  unfold jsTrim trimLeft trimRight
  by_cases hl : (l.dropWhile isJsWs).isEmpty = true
  · have hl2 : l.dropWhile isJsWs = [] := by simpa using hl
    simp [List.dropWhile_append, hl2, ha]
  · have hl' : (l.dropWhile isJsWs).isEmpty = false := by
      revert hl; cases (l.dropWhile isJsWs).isEmpty <;> simp
    simp [List.dropWhile_append, hl', ha]

/-- Niqqud marks are not whitespace. -/
theorem isJsWs_of_niqqud (c : Char) (hc : isNiqqud c = true) : isJsWs c = false := by
  unfold isNiqqud at hc
  rw [decide_eq_true_eq] at hc
  unfold isJsWs
  rw [decide_eq_false_iff_not]
  omega

/-- The key ignores a leading whitespace character. -/
theorem normList_cons_ws (a : Char) (ha : isJsWs a = true) (l : List Char) :
    normList (a :: l) = normList l := by
  unfold normList
  rw [jsTrim_cons_ws a ha l]

/-- The key ignores a trailing whitespace character. -/
theorem normList_concat_ws (a : Char) (ha : isJsWs a = true) (l : List Char) :
    normList (l ++ [a]) = normList l := by
  unfold normList
  rw [jsTrim_concat_ws a ha l]

/-- The key ignores an extra whitespace character heading a whitespace run. -/
theorem normList_wspair (u v : List Char) (a b : Char) (ha : isJsWs a = true)
    (hb : isJsWs b = true) :
    normList (u ++ a :: b :: v) = normList (u ++ b :: v) := by
  unfold normList
  rcases jsTrim_wspair u v a b ha hb with heq | ⟨W, R, h1, h2⟩
  · rw [heq]
  · rw [h1, h2]
    unfold collapseWs
    rw [collapseWsAux_dup a b ha hb R W false]

/-- The key depends on the input only through its lowercase image. -/
theorem normList_eq_of_lower (s t : List Char) (h : s.map jsToLower = t.map jsToLower) :
    normList s = normList t := by
  unfold normList collapseWs
  rw [← collapseWsAux_map_lower (jsTrim s) false, ← jsTrim_map_lower s, h,
    ← collapseWsAux_map_lower (jsTrim t) false, ← jsTrim_map_lower t]

/-- The key ignores duplication of any single character. -/
theorem normList_dup (u v : List Char) (c : Char) :
    normList (u ++ c :: c :: v) = normList (u ++ c :: v) := by
  by_cases hws : isJsWs c = true
  · exact normList_wspair u v c c hws hws
  · have hc : isJsWs c = false := by revert hws; cases isJsWs c <;> simp
    unfold normList collapseWs
    obtain ⟨W, R, h1, h2⟩ := jsTrim_shape u v c c hc hc
    rw [h1, h2]
    obtain ⟨CW, hC1, hC2⟩ := collapseWsAux_ins c c hc hc R W false
    rw [hC1, hC2]
    by_cases hnq : isNiqqud (jsToLower c) = true
    · simp [stripNiqqud, List.filter_append, List.filter_cons, hnq]
    · have hnq' : (!isNiqqud (jsToLower c)) = true := by
        revert hnq; cases isNiqqud (jsToLower c) <;> simp
      have hlt : isLineTerm (jsToLower c) = false := by
        cases hlt : isLineTerm (jsToLower c) with
        | false => rfl
        | true =>
          have hw := isJsWs_of_isLineTerm _ hlt
          rw [isJsWs_jsToLower] at hw
          rw [hw] at hc
          cases hc
      simp only [List.map_append, List.map_cons, stripNiqqud, List.filter_append,
        List.filter_cons, hnq', if_true]
      unfold collapseDups
      rw [collapseDupsAux_dup (jsToLower c) hlt]

/-- The key ignores a niqqud mark that follows a non-whitespace character. -/
theorem normList_niqqud (u v : List Char) (d c : Char) (hd : isJsWs d = false)
    (hc : isNiqqud c = true) :
    normList (u ++ d :: c :: v) = normList (u ++ d :: v) := by
  have hcw : isJsWs c = false := isJsWs_of_niqqud c hc
  unfold normList collapseWs
  obtain ⟨W, R, h1, h2⟩ := jsTrim_shape u v d c hd hcw
  rw [h1, h2]
  obtain ⟨CW, hC1, hC2⟩ := collapseWsAux_ins d c hd hcw R W false
  rw [hC1, hC2]
  simp [stripNiqqud, List.filter_append, List.filter_cons, jsToLower_niqqud c hc, hc]

/-- C7 (amended): `normalizeName` is total and pure by construction, maps the
empty string to itself, and yields equal keys for inputs that differ only in
letter case (equal lowercase images), in an extra leading or trailing
whitespace character, in an extra whitespace character heading a whitespace
run, in duplication of any single character, or in a Hebrew niqqud mark that
follows a non-whitespace character. The spec's unrestricted niqqud clause is
amended: a mark with no adjacent non-whitespace base character can shield
whitespace from the trim (see the counterexample). -/
theorem c7_normalize_equivalences :
    normalizeName "" = "" ∧
    (∀ s t : String, s.data.map jsToLower = t.data.map jsToLower →
      normalizeName s = normalizeName t) ∧
    (∀ (l : List Char) (a : Char), isJsWs a = true →
      normalizeName (String.mk (a :: l)) = normalizeName (String.mk l)) ∧
    (∀ (l : List Char) (a : Char), isJsWs a = true →
      normalizeName (String.mk (l ++ [a])) = normalizeName (String.mk l)) ∧
    (∀ (u v : List Char) (a b : Char), isJsWs a = true → isJsWs b = true →
      normalizeName (String.mk (u ++ a :: b :: v))
        = normalizeName (String.mk (u ++ b :: v))) ∧
    (∀ (u v : List Char) (c : Char),
      normalizeName (String.mk (u ++ c :: c :: v))
        = normalizeName (String.mk (u ++ c :: v))) ∧
    (∀ (u v : List Char) (d c : Char), isJsWs d = false → isNiqqud c = true →
      normalizeName (String.mk (u ++ d :: c :: v))
        = normalizeName (String.mk (u ++ d :: v))) := by
  refine ⟨rfl, ?_, ?_, ?_, ?_, ?_, ?_⟩
  · intro s t h
    unfold normalizeName
    rw [normList_eq_of_lower s.data t.data h]
  · intro l a ha
    unfold normalizeName
    rw [normList_cons_ws a ha l]
  · intro l a ha
    unfold normalizeName
    rw [normList_concat_ws a ha l]
  · intro u v a b ha hb
    unfold normalizeName
    rw [normList_wspair u v a b ha hb]
  · intro u v c
    unfold normalizeName
    rw [normList_dup u v c]
  · intro u v d c hd hc
    unfold normalizeName
    rw [normList_niqqud u v d c hd hc]

/-- Counterexample to C7 as stated: the inputs `"֑ a"` and `" a"` differ only
in a Hebrew niqqud mark (their niqqud-stripped characters agree), yet they
get different keys — the mark shields the following space from the trim. -/
theorem c7_counterexample :
    stripNiqqud ("֑ a".data) = stripNiqqud (" a".data) ∧
    normalizeName "֑ a" ≠ normalizeName " a" := by
  refine ⟨by decide, ?_⟩
  intro h
  have h2 : (normalizeName "֑ a").data = (normalizeName " a").data := by rw [h]
  revert h2
  decide

/-- Witness for the amended C7 at concrete input: dropping the qamats mark of
a pointed Hebrew word keeps the key. -/
theorem c7_normalize_equivalences_witness :
    isJsWs 'ש' = false ∧ isNiqqud 'ָ' = true ∧
    normalizeName (String.mk ([] ++ 'ש' :: 'ָ' :: ['ם']))
      = normalizeName (String.mk ([] ++ 'ש' :: ['ם'])) :=
  ⟨by decide, by decide,
    c7_normalize_equivalences.2.2.2.2.2.2 [] ['ם'] 'ש' 'ָ' (by decide) (by decide)⟩


end CraftKind
